import Mathlib

/-!
Verification of the two-pass sentence chunking pipeline from
`a_sentence_chunker.c` (Pass 1: heuristic sentence segmentation;
Pass 2: length-driven re-chunking).

The C code is shallowly embedded: the input text is a `List Char`
(the byte sequence of a NUL-terminated C string of length `L`;
reading index `L` yields the terminator byte `'\x00'`), chunks are
`(start_offset, length)` records, and each C loop is translated to a
structurally recursive Lean function whose extra `Nat` argument counts
the remaining loop iterations exactly (it reaches `0` only when the C
loop condition is already false, so the translation is exact).
All `size_t` arithmetic that provably cannot underflow in the states
reached by the functions is modelled with `Nat` arithmetic.
-/

namespace SentenceChunker

/-- A chunk record: `(start_offset, length)` into the original text,
    mirroring `a_sentence_chunk_t`. -/
structure Chunk where
  start_offset : Nat
  length : Nat
deriving DecidableEq, Repr

/-- One-past-the-end offset of a chunk. -/
def cend (c : Chunk) : Nat := c.start_offset + c.length

/-- Reading byte `k` of a NUL-terminated C string: index `t.length`
    yields the terminator `'\x00'`.  (The C code never reads past the
    terminator; this is proved below for the abbreviation check.) -/
def byteAt (t : List Char) (k : Nat) : Char := t.getD k (Char.ofNat 0)

/-- `is_sentence_punct` from the C source. -/
def is_sentence_punct (c : Char) : Bool := c = '.' ∨ c = '?' ∨ c = '!'

/-- `is_whitespace` from the C source (space, tab, newline, carriage return). -/
def is_whitespace (c : Char) : Bool := c = ' ' ∨ c = '\t' ∨ c = '\n' ∨ c = '\r'

/-- `is_alpha` from the C source. -/
def is_alpha (c : Char) : Bool := ('a' ≤ c ∧ c ≤ 'z') ∨ ('A' ≤ c ∧ c ≤ 'Z')

/-- `isdigit` (C locale, ASCII). -/
def c_isdigit (c : Char) : Bool := '0' ≤ c ∧ c ≤ '9'

/-- `isupper` (C locale, ASCII). -/
def c_isupper (c : Char) : Bool := 'A' ≤ c ∧ c ≤ 'Z'

/-- `islower` (C locale, ASCII). -/
def c_islower (c : Char) : Bool := 'a' ≤ c ∧ c ≤ 'z'

/-- `isspace` (C locale, ASCII): the six standard space characters.
    Used only by `find_split_point` heuristics 1b and 4. -/
def c_isspace (c : Char) : Bool :=
  c = ' ' ∨ c = '\t' ∨ c = '\n' ∨ c = Char.ofNat 11 ∨ c = Char.ofNat 12 ∨ c = '\r'

/-- `tolower` on an ASCII byte, as used by `strcasecmp`. -/
def lowerC (c : Char) : Char :=
  if 'A' ≤ c ∧ c ≤ 'Z' then Char.ofNat (c.toNat + 32) else c

/-- The fixed abbreviation table `ABBREVS` from the C source. -/
def ABBREVS : List (List Char) :=
  ["Mr".data, "Mrs".data, "Ms".data, "Dr".data, "St".data, "etc".data,
   "i.e".data, "e.g".data, "vs".data, "Inc".data, "Corp".data, "Ltd".data,
   "Co".data, "Jr".data, "Sr".data, "Ph.D".data]

/-- `skip_spaces` inner loop (`while (j < len && is_whitespace(text[j])) j++`),
    with an explicit iteration counter.  Called with `fuel = len - j`, so the
    `0` case coincides with the loop condition `j < len` being false. -/
def skipSpacesAux (t : List Char) (len : Nat) : Nat → Nat → Nat
  | 0, j => j
  | fuel + 1, j =>
    if j < len ∧ is_whitespace (byteAt t j) then skipSpacesAux t len fuel (j + 1) else j

/-- `skip_spaces`: index of the next non-whitespace character at or after
    `start`, or `len` if none. -/
def skip_spaces (t : List Char) (start len : Nat) : Nat :=
  skipSpacesAux t len (len - start) start

/-- The walk-back in `matches_abbreviation`
    (`start = i-1; while (start >= 0 && !is_whitespace(text[start])) start--;`).
    Returns `start + 1`, the first index of the preceding word. -/
def abbrevWordStart (t : List Char) : Nat → Nat
  | 0 => 0
  | k + 1 => if is_whitespace (byteAt t k) then k + 1 else abbrevWordStart t k

/-- `matches_abbreviation` from the C source: `i` points at a `'.'`.
    Note that the reads at index `i + 1` are not bounds-checked in the C code;
    when `i + 1 = t.length` they see the NUL terminator (`byteAt` models this). -/
def matches_abbreviation (t : List Char) (i : Nat) : Bool :=
  if i = 0 then false
  else
    let w := abbrevWordStart t i
    let alen := i - w
    if alen = 0 then false
    else if is_alpha (byteAt t (i + 1)) then true
    else if alen = 1 ∧ c_isupper (byteAt t w) then true
    else if alen = 1 ∧ ¬ is_whitespace (byteAt t (i + 1)) then true
    else if 32 ≤ alen then false
    else ABBREVS.any fun a =>
      (List.range' w alen).map (fun k => lowerC (byteAt t k)) = a.map lowerC

/-- `is_just_digits`: `text[start .. i)` is non-empty and all digits. -/
def is_just_digits (t : List Char) (start i : Nat) : Bool :=
  if i ≤ start then false
  else (List.range' start (i - start)).all fun k => c_isdigit (byteAt t k)

/-- The walk-back of the ordinal rule
    (`while (word_start > 0 && !ws(text[word_start-1]) && text[word_start-1] != '.') word_start--;`). -/
def ordinalWordStart (t : List Char) : Nat → Nat
  | 0 => 0
  | k + 1 =>
    if is_whitespace (byteAt t k) ∨ byteAt t k = '.' then k + 1 else ordinalWordStart t k

/-- Rule 3 of the heuristic (ordinal lists such as `1.`, `2.`):
    the word before the dot is all digits and the next non-whitespace
    byte is absent, a digit, or lower-case. -/
def ordinalSuppressed (t : List Char) (i len : Nat) : Bool :=
  let w := ordinalWordStart t i
  is_just_digits t w i ∧
    (let j := skip_spaces t (i + 1) len
     len ≤ j ∨ c_isdigit (byteAt t j) ∨ c_islower (byteAt t j))

/-- `is_end_of_sentence_heuristic` from the C source. -/
def is_end_of_sentence_heuristic (t : List Char) (i len : Nat) : Bool :=
  let c := byteAt t i
  if c = '.' ∧ 0 < i ∧ i < len - 1 ∧
      c_isdigit (byteAt t (i - 1)) ∧ c_isdigit (byteAt t (i + 1)) then false
  else if c = '.' ∧ matches_abbreviation t i then false
  else if c = '.' ∧ ordinalSuppressed t i len then false
  else true

/-- `consume_multiple_punctuation` inner loop
    (`while (i+1 < len && is_sentence_punct(text[i+1])) i++`), with exact
    iteration counter `fuel = len - i`. -/
def consumePunctAux (t : List Char) (len : Nat) : Nat → Nat → Nat
  | 0, i => i
  | fuel + 1, i =>
    if i + 1 < len ∧ is_sentence_punct (byteAt t (i + 1)) then
      consumePunctAux t len fuel (i + 1)
    else i

/-- `consume_multiple_punctuation`. -/
def consume_multiple_punctuation (t : List Char) (i len : Nat) : Nat :=
  consumePunctAux t len (len - i) i

/-- A byte absorbed after terminal punctuation (quotes, right brackets,
    or more sentence punctuation). -/
def isCloser (c : Char) : Bool :=
  c = '"' ∨ c = '\'' ∨ c = ')' ∨ c = ']' ∨ c = '}' ∨ is_sentence_punct c

/-- `consume_trailing_closers` inner loop, with exact iteration counter. -/
def consumeClosersAux (t : List Char) (len : Nat) : Nat → Nat → Nat
  | 0, i => i
  | fuel + 1, i =>
    if i + 1 < len ∧ isCloser (byteAt t (i + 1)) then
      consumeClosersAux t len fuel (i + 1)
    else i

/-- `consume_trailing_closers`. -/
def consume_trailing_closers (t : List Char) (i len : Nat) : Nat :=
  consumeClosersAux t len (len - i) i

/-- The scan loop of `a_sentence_chunker`.  `fuel` counts remaining
    iterations; since `i` grows by at least one per iteration, the initial
    call with `fuel = len + 1` never reaches `0` with `i < len`, and the
    `0` case is the loop exit (leftover emission), so the translation is
    exact whenever `len ≤ i + fuel`. -/
def chunkerLoop (t : List Char) (len : Nat) : Nat → Nat → Nat → List Chunk
  | 0, start_off, _ =>
    if start_off < len then [⟨start_off, len - start_off⟩] else []
  | fuel + 1, start_off, i =>
    if i < len then
      if is_sentence_punct (byteAt t i) then
        let last_punct := consume_multiple_punctuation t i len
        if is_end_of_sentence_heuristic t last_punct len then
          let lp2 := consume_trailing_closers t last_punct len
          let boundary_len := lp2 + 1 - start_off
          let emitted : List Chunk :=
            if 0 < boundary_len then [⟨start_off, boundary_len⟩] else []
          emitted ++ chunkerLoop t len fuel (skip_spaces t (lp2 + 1) len) (lp2 + 1)
        else
          chunkerLoop t len fuel start_off (last_punct + 1)
      else
        chunkerLoop t len fuel start_off (i + 1)
    else
      if start_off < len then [⟨start_off, len - start_off⟩] else []

/-- `a_sentence_chunker` (Pass 1): empty input yields no chunks, otherwise
    the scan loop runs from `start_off = i = 0`. -/
def a_sentence_chunker (t : List Char) : List Chunk :=
  if t.length = 0 then [] else chunkerLoop t t.length (t.length + 1) 0 0

/-! ### Pass 2: `adjust_for_token_boundary`, `find_split_point`, `a_rechunk_sentences` -/

/-- Backward walk of `adjust_for_token_boundary`
    (`j = candidate; while (j > chunk_start) { if ws(text[j]) return j; j--; }`). -/
def backScanWs (t : List Char) (chunk_start : Nat) : Nat → Option Nat
  | 0 => none
  | j + 1 =>
    if chunk_start < j + 1 then
      if is_whitespace (byteAt t (j + 1)) then some (j + 1) else backScanWs t chunk_start j
    else none

/-- Forward walk of `adjust_for_token_boundary`
    (`j = candidate; while (j < chunk_end) { if ws(text[j]) return j; j++; }`),
    with exact iteration counter `fuel = chunk_end - j`. -/
def fwdScanWs (t : List Char) (chunk_end : Nat) : Nat → Nat → Option Nat
  | 0, _ => none
  | fuel + 1, j =>
    if j < chunk_end then
      if is_whitespace (byteAt t j) then some j else fwdScanWs t chunk_end fuel (j + 1)
    else none

/-- `adjust_for_token_boundary`: move a candidate split index backward (then
    forward) to the nearest whitespace byte; `0` signals "no valid boundary". -/
def adjust_for_token_boundary (t : List Char) (chunk_start chunk_end candidate : Nat) : Nat :=
  if candidate ≤ chunk_start ∨ chunk_end ≤ candidate then candidate
  else
    match backScanWs t chunk_start candidate with
    | some j => j
    | none =>
      match fwdScanWs t chunk_end (chunk_end - candidate) candidate with
      | some j => j
      | none => 0

/-- The shared tail of every `find_split_point` heuristic: token-align the
    candidate and accept it only strictly inside the chunk, else return
    `end_offset` (no split). -/
def finishAdjust (t : List Char) (start_offset end_offset i : Nat) : Nat :=
  let adjusted := adjust_for_token_boundary t start_offset end_offset i
  if start_offset < adjusted ∧ adjusted < end_offset then adjusted else end_offset

/-- Heuristic 1 scan: rightmost `i` in `(search_start, search_end]` with two
    consecutive newlines ending at `i`.  The scan runs `i` downward, so it is
    structurally recursive on `i`. -/
def scanPara (t : List Char) (search_start end_offset : Nat) : Nat → Option Nat
  | 0 => none
  | i + 1 =>
    if search_start < i + 1 then
      if search_start ≤ i ∧ i + 1 < end_offset ∧ byteAt t i = '\n' ∧ byteAt t (i + 1) = '\n'
      then some (i + 1)
      else scanPara t search_start end_offset i
    else none

/-- Heuristic 1b scan: three `isspace` bytes in a row ending at `i`. -/
def scanTriple (t : List Char) (search_start end_offset : Nat) : Nat → Option Nat
  | 0 => none
  | i + 1 =>
    if search_start < i + 1 then
      if search_start ≤ i + 1 - 2 ∧ i + 1 < end_offset ∧
          c_isspace (byteAt t (i + 1 - 2)) ∧ c_isspace (byteAt t i) ∧
          c_isspace (byteAt t (i + 1))
      then some (i + 1)
      else scanTriple t search_start end_offset i
    else none

/-- Heuristic 2 scan: a single newline at `i`. -/
def scanNewline (t : List Char) (search_start : Nat) : Nat → Option Nat
  | 0 => none
  | i + 1 =>
    if search_start < i + 1 then
      if byteAt t (i + 1) = '\n' then some (i + 1)
      else scanNewline t search_start i
    else none

/-- Heuristic 3 scan: sentence punctuation, then whitespace at `i`, with the
    next non-whitespace byte inside the chunk upper-case. -/
def scanSeam (t : List Char) (search_start end_offset : Nat) : Nat → Option Nat
  | 0 => none
  | i + 1 =>
    if search_start < i + 1 then
      if i + 1 < end_offset ∧ is_sentence_punct (byteAt t i) ∧
          is_whitespace (byteAt t (i + 1)) ∧
          (let j := skipSpacesAux t end_offset (end_offset - (i + 2)) (i + 2)
           j < end_offset ∧ c_isupper (byteAt t j))
      then some (i + 1)
      else scanSeam t search_start end_offset i
    else none

/-- Heuristic 4 scan: any `isspace` byte at `i`. -/
def scanAnyWs (t : List Char) (search_start : Nat) : Nat → Option Nat
  | 0 => none
  | i + 1 =>
    if search_start < i + 1 then
      if c_isspace (byteAt t (i + 1)) then some (i + 1)
      else scanAnyWs t search_start i
    else none

/-- `find_split_point` from the C source. -/
def find_split_point (t : List Char) (start_offset length min_length max_length : Nat) : Nat :=
  let end_offset := start_offset + length
  if length ≤ max_length then end_offset
  else
    let search_start := start_offset + min_length
    let valid_split_end := end_offset - min_length
    let search_end := start_offset + max_length
    if valid_split_end < search_end then end_offset
    else if search_end ≤ search_start then end_offset
    else
      match scanPara t search_start end_offset search_end with
      | some i => finishAdjust t start_offset end_offset i
      | none =>
      match scanTriple t search_start end_offset search_end with
      | some i => finishAdjust t start_offset end_offset i
      | none =>
      match scanNewline t search_start search_end with
      | some i => finishAdjust t start_offset end_offset i
      | none =>
      match scanSeam t search_start end_offset search_end with
      | some i => finishAdjust t start_offset end_offset i
      | none =>
      match scanAnyWs t search_start search_end with
      | some i => finishAdjust t start_offset end_offset i
      | none => finishAdjust t start_offset end_offset search_end

/-- The Case-3 splitting loop of `a_rechunk_sentences`
    (`while (remaining.length > max_length) { ... }` followed by appending the
    leftover), with an iteration counter.  Each accepted split strictly
    decreases `remaining.length` (theorem `C9_split_loop_terminates`), so the
    initial counter `current.length + 1` never runs out; the `0` case appends
    the leftover exactly like the loop exit. -/
def splitLoop (t : List Char) (min_length max_length : Nat) :
    Nat → Chunk → List Chunk → List Chunk
  | 0, remaining, acc => acc ++ [remaining]
  | fuel + 1, remaining, acc =>
    if max_length < remaining.length then
      let split_pt := find_split_point t remaining.start_offset remaining.length
        min_length max_length
      if split_pt ≤ remaining.start_offset ∨ cend remaining ≤ split_pt then
        acc ++ [remaining]
      else
        splitLoop t min_length max_length fuel
          ⟨split_pt, cend remaining - split_pt⟩
          (acc ++ [⟨remaining.start_offset, split_pt - remaining.start_offset⟩])
    else acc ++ [remaining]

/-- Outcome of the backward-merge attempt in Case 2 of `a_rechunk_sentences`.
    `crash` models the C code reading `aml_buffer_end(second_buffer) - 1`
    while the output buffer is empty (an invalid access). -/
inductive BwOutcome where
  | crash : BwOutcome
  | merged : List Chunk → BwOutcome
  | skipped : BwOutcome
deriving DecidableEq, Repr

/-- The backward-merge attempt: guarded by `i > 0`; on success the last
    appended output record is mutated in place (`last->length = combined_len`). -/
def backwardMergeAttempt (current : Chunk) (i : Nat) (out : List Chunk)
    (max_length : Nat) : BwOutcome :=
  if 0 < i then
    match out.getLast? with
    | none => .crash
    | some last =>
      let combined_len := cend current - last.start_offset
      if combined_len ≤ max_length then
        .merged (out.dropLast ++ [⟨last.start_offset, combined_len⟩])
      else .skipped
  else .skipped

/-- The main loop of `a_rechunk_sentences` over the first-pass chunks.
    `i` is the C loop index (advanced by 2 on a forward merge); `out` is the
    output buffer; the first `Nat` argument counts remaining iterations and is
    called with the number of remaining input chunks, so it reaches `0` only
    when the input is exhausted (the `0` case is the loop exit).  The result
    is `none` exactly when the backward-merge branch would dereference the
    last record of an empty output buffer. -/
def rechunkLoop (t : List Char) (min_length max_length : Nat) :
    Nat → List Chunk → Nat → List Chunk → Option (List Chunk)
  | 0, _, _, out => some out
  | fuel + 1, rem, i, out =>
    match rem with
    | [] => some out
    | current :: rest =>
      if min_length ≤ current.length ∧ current.length ≤ max_length then
        rechunkLoop t min_length max_length fuel rest (i + 1) (out ++ [current])
      else if current.length < min_length then
        match backwardMergeAttempt current i out max_length with
        | .crash => none
        | .merged out2 => rechunkLoop t min_length max_length fuel rest (i + 1) out2
        | .skipped =>
          match rest with
          | next :: rest2 =>
            if cend next - current.start_offset ≤ max_length then
              rechunkLoop t min_length max_length fuel rest2 (i + 2)
                (out ++ [⟨current.start_offset, cend next - current.start_offset⟩])
            else
              rechunkLoop t min_length max_length fuel (next :: rest2) (i + 1)
                (out ++ [current])
          | [] => some (out ++ [current])
      else
        rechunkLoop t min_length max_length fuel rest (i + 1)
          (splitLoop t min_length max_length (current.length + 1) current out)

/-- `a_rechunk_sentences` (Pass 2). -/
def a_rechunk_sentences (t : List Char) (first_pass_chunks : List Chunk)
    (min_length max_length : Nat) : Option (List Chunk) :=
  rechunkLoop t min_length max_length first_pass_chunks.length first_pass_chunks 0 []

/-! ### Derived predicates used by the claims -/

/-- Adjacent chunks are ordered and non-overlapping:
    `cend a ≤ b.start_offset` for each consecutive pair. -/
def sortedChunks : List Chunk → Bool
  | [] => true
  | [_] => true
  | a :: b :: rest => decide (cend a ≤ b.start_offset) && sortedChunks (b :: rest)

/-- Byte index `k` is covered by some chunk of `cs`. -/
def coveredBy (cs : List Chunk) (k : Nat) : Bool :=
  cs.any fun c => decide (c.start_offset ≤ k ∧ k < cend c)

/-- `j` is a boundary (start or one-past-end) of some chunk of `cs`. -/
def inputBoundary (cs : List Chunk) (j : Nat) : Bool :=
  cs.any fun c => decide (c.start_offset = j ∨ cend c = j)

/-! ### Character-class facts -/

theorem punct_not_ws {c : Char} (h : is_sentence_punct c = true) :
    is_whitespace c = false := by
  simp only [is_sentence_punct, decide_eq_true_eq] at h
  rcases h with h | h | h <;> subst h <;> decide

/-! ### Lemmas about the small scanning loops of Pass 1 -/

theorem skipSpacesAux_le (t : List Char) (len : Nat) :
    ∀ fuel j, j ≤ skipSpacesAux t len fuel j := by
  intro fuel
  induction fuel with
  | zero => intro j; simp [skipSpacesAux]
  | succ fuel ih =>
    intro j
    simp only [skipSpacesAux]
    split
    · exact Nat.le_trans (Nat.le_succ j) (ih (j + 1))
    · exact Nat.le_refl j

theorem skipSpacesAux_le_len (t : List Char) (len : Nat) :
    ∀ fuel j, j ≤ len → skipSpacesAux t len fuel j ≤ len := by
  intro fuel
  induction fuel with
  | zero => intro j hj; simpa [skipSpacesAux] using hj
  | succ fuel ih =>
    intro j hj
    simp only [skipSpacesAux]
    split
    · next h => exact ih (j + 1) (by omega)
    · exact hj

theorem skipSpacesAux_not_ws (t : List Char) (len : Nat) :
    ∀ fuel j, len ≤ j + fuel → skipSpacesAux t len fuel j < len →
      is_whitespace (byteAt t (skipSpacesAux t len fuel j)) = false := by
  intro fuel
  induction fuel with
  | zero =>
    intro j hfuel hlt
    simp only [skipSpacesAux] at hlt
    omega
  | succ fuel ih =>
    intro j hfuel hlt
    simp only [skipSpacesAux] at hlt ⊢
    split
    · next h =>
      rw [if_pos h] at hlt
      exact ih (j + 1) (by omega) hlt
    · next h =>
      rw [if_neg h] at hlt
      rcases Decidable.not_and_iff_or_not.mp h with h1 | h2
      · omega
      · exact Bool.not_eq_true _ ▸ (by simpa using h2)

theorem skipSpacesAux_ws_region (t : List Char) (len : Nat) :
    ∀ fuel j k, j ≤ k → k < skipSpacesAux t len fuel j →
      is_whitespace (byteAt t k) = true := by
  intro fuel
  induction fuel with
  | zero => intro j k hjk hk; simp only [skipSpacesAux] at hk; omega
  | succ fuel ih =>
    intro j k hjk hk
    simp only [skipSpacesAux] at hk
    by_cases h : j < len ∧ is_whitespace (byteAt t j) = true
    · rw [if_pos h] at hk
      rcases Nat.eq_or_lt_of_le hjk with rfl | hlt
      · exact h.2
      · exact ih (j + 1) k hlt hk
    · rw [if_neg h] at hk; omega

theorem consumePunctAux_le (t : List Char) (len : Nat) :
    ∀ fuel i, i ≤ consumePunctAux t len fuel i := by
  intro fuel
  induction fuel with
  | zero => intro i; simp [consumePunctAux]
  | succ fuel ih =>
    intro i
    simp only [consumePunctAux]
    split
    · exact Nat.le_trans (Nat.le_succ i) (ih (i + 1))
    · exact Nat.le_refl i

theorem consumePunctAux_lt_len (t : List Char) (len : Nat) :
    ∀ fuel i, i < len → consumePunctAux t len fuel i < len := by
  intro fuel
  induction fuel with
  | zero => intro i hi; simpa [consumePunctAux] using hi
  | succ fuel ih =>
    intro i hi
    simp only [consumePunctAux]
    split
    · next h => exact ih (i + 1) h.1
    · exact hi

theorem consumePunctAux_punct (t : List Char) (len : Nat) :
    ∀ fuel i, is_sentence_punct (byteAt t i) = true →
      is_sentence_punct (byteAt t (consumePunctAux t len fuel i)) = true := by
  intro fuel
  induction fuel with
  | zero => intro i hi; simpa [consumePunctAux] using hi
  | succ fuel ih =>
    intro i hi
    simp only [consumePunctAux]
    split
    · next h => exact ih (i + 1) h.2
    · exact hi

theorem consumeClosersAux_le (t : List Char) (len : Nat) :
    ∀ fuel i, i ≤ consumeClosersAux t len fuel i := by
  intro fuel
  induction fuel with
  | zero => intro i; simp [consumeClosersAux]
  | succ fuel ih =>
    intro i
    simp only [consumeClosersAux]
    split
    · exact Nat.le_trans (Nat.le_succ i) (ih (i + 1))
    · exact Nat.le_refl i

theorem consumeClosersAux_lt_len (t : List Char) (len : Nat) :
    ∀ fuel i, i < len → consumeClosersAux t len fuel i < len := by
  intro fuel
  induction fuel with
  | zero => intro i hi; simpa [consumeClosersAux] using hi
  | succ fuel ih =>
    intro i hi
    simp only [consumeClosersAux]
    split
    · next h => exact ih (i + 1) h.1
    · exact hi

/-! ### Lemmas about `sortedChunks` -/

theorem sortedChunks_cons_of (a : Chunk) (l : List Chunk)
    (hl : sortedChunks l = true)
    (h : ∀ c ∈ l, cend a ≤ c.start_offset) : sortedChunks (a :: l) = true := by
  cases l with
  | nil => rfl
  | cons b l2 =>
    simp only [sortedChunks, Bool.and_eq_true, decide_eq_true_eq]
    exact ⟨h b (List.mem_cons_self b l2), hl⟩

theorem sortedChunks_tail (a : Chunk) (l : List Chunk)
    (h : sortedChunks (a :: l) = true) : sortedChunks l = true := by
  cases l with
  | nil => rfl
  | cons b l2 =>
    simp only [sortedChunks, Bool.and_eq_true] at h
    exact h.2

theorem sortedChunks_head_le (a b : Chunk) (l : List Chunk)
    (h : sortedChunks (a :: b :: l) = true) : cend a ≤ b.start_offset := by
  simp only [sortedChunks, Bool.and_eq_true, decide_eq_true_eq] at h
  exact h.1

theorem sortedChunks_le_of_mem (c : Chunk) (l : List Chunk)
    (h : sortedChunks (c :: l) = true) : ∀ d ∈ l, cend c ≤ d.start_offset := by
  induction l generalizing c with
  | nil => intro d hd; simp at hd
  | cons e l2 ih =>
    intro d hd
    have h1 := sortedChunks_head_le c e l2 h
    rcases List.mem_cons.mp hd with rfl | hd2
    · exact h1
    · have h2 := ih e (sortedChunks_tail c (e :: l2) h) d hd2
      have h3 : e.start_offset ≤ cend e := Nat.le_add_right _ _
      omega

theorem sortedChunks_concat_iff (l : List Chunk) (b : Chunk) :
    sortedChunks (l ++ [b]) = true ↔
      sortedChunks l = true ∧ ∀ lo, l.getLast? = some lo → cend lo ≤ b.start_offset := by
  induction l with
  | nil => simp [sortedChunks]
  | cons a l ih =>
    cases l with
    | nil =>
      simp [sortedChunks, List.getLast?]
    | cons c l2 =>
      rw [List.cons_append, List.cons_append]
      constructor
      · intro h
        have h1 := sortedChunks_head_le a c (l2 ++ [b]) (by simpa using h)
        have h2 := sortedChunks_tail a ((c :: l2) ++ [b]) (by simpa using h)
        have h3 := ih.mp h2
        refine ⟨?_, ?_⟩
        · simp only [sortedChunks, Bool.and_eq_true, decide_eq_true_eq]
          exact ⟨h1, h3.1⟩
        · intro lo hlo
          rw [List.getLast?_cons_cons] at hlo
          exact h3.2 lo hlo
      · intro ⟨h1, h2⟩
        have ha := sortedChunks_head_le a c l2 h1
        have htl : sortedChunks ((c :: l2) ++ [b]) = true := by
          apply ih.mpr
          refine ⟨sortedChunks_tail a (c :: l2) h1, ?_⟩
          intro lo hlo
          exact h2 lo (by rw [List.getLast?_cons_cons]; exact hlo)
        simp only [List.cons_append] at htl
        simp only [sortedChunks, Bool.and_eq_true, decide_eq_true_eq]
        exact ⟨ha, htl⟩

/-! ### Invariants of the Pass-1 scan loop -/

/-- Main invariant of the scan loop: given that everything between the cursor
    `i` and the pending chunk start `so` is whitespace, every emitted chunk
    starts at or after `so`, has positive length, stays inside the text, and
    the emitted sequence is sorted and non-overlapping. -/
theorem chunkerLoop_wf (t : List Char) (len : Nat) :
    ∀ fuel so i, so ≤ len →
      (∀ k, i ≤ k → k < so → is_whitespace (byteAt t k) = true) →
      (∀ c ∈ chunkerLoop t len fuel so i,
         so ≤ c.start_offset ∧ 0 < c.length ∧ cend c ≤ len) ∧
      sortedChunks (chunkerLoop t len fuel so i) = true := by
  intro fuel
  induction fuel with
  | zero =>
    intro so i hso _
    simp only [chunkerLoop]
    split
    · next h =>
      refine ⟨?_, rfl⟩
      intro c hc
      simp only [List.mem_singleton] at hc
      subst hc
      exact ⟨Nat.le_refl _, by show 0 < len - so; omega, by simp [cend]; omega⟩
    · exact ⟨by intro c hc; simp at hc, rfl⟩
  | succ fuel ih =>
    intro so i hso hreg
    simp only [chunkerLoop]
    by_cases hi : i < len
    · rw [if_pos hi]
      by_cases hp : is_sentence_punct (byteAt t i) = true
      · rw [if_pos hp]
        have hso_i : so ≤ i := by
          by_contra h
          have hw := hreg i (Nat.le_refl i) (by omega)
          rw [punct_not_ws hp] at hw
          exact Bool.false_ne_true hw
        set lp := consume_multiple_punctuation t i len with hlp
        have hlp1 : i ≤ lp := consumePunctAux_le t len (len - i) i
        have hlp2 : lp < len := consumePunctAux_lt_len t len (len - i) i hi
        by_cases hh : is_end_of_sentence_heuristic t lp len = true
        · rw [if_pos hh]
          set lp2 := consume_trailing_closers t lp len with hlp2d
          have hq1 : lp ≤ lp2 := consumeClosersAux_le t len (len - lp) lp
          have hq2 : lp2 < len := consumeClosersAux_lt_len t len (len - lp) lp hlp2
          have hbl : 0 < lp2 + 1 - so := by omega
          rw [if_pos hbl]
          set so2 := skip_spaces t (lp2 + 1) len with hso2d
          have hs1 : lp2 + 1 ≤ so2 := skipSpacesAux_le t len (len - (lp2 + 1)) (lp2 + 1)
          have hs2 : so2 ≤ len := skipSpacesAux_le_len t len (len - (lp2 + 1)) (lp2 + 1) (by omega)
          have hs3 : ∀ k, lp2 + 1 ≤ k → k < so2 → is_whitespace (byteAt t k) = true :=
            fun k hk1 hk2 => skipSpacesAux_ws_region t len (len - (lp2 + 1)) (lp2 + 1) k hk1 hk2
          obtain ⟨ihmem, ihsorted⟩ := ih so2 (lp2 + 1) hs2 hs3
          rw [List.singleton_append]
          constructor
          · intro c hc
            rcases List.mem_cons.mp hc with rfl | hc2
            · exact ⟨Nat.le_refl _, hbl, by simp [cend]; omega⟩
            · obtain ⟨h1, h2, h3⟩ := ihmem c hc2
              exact ⟨by omega, h2, h3⟩
          · apply sortedChunks_cons_of _ _ ihsorted
            intro c hc
            have h1 := (ihmem c hc).1
            simp [cend]
            omega
        · rw [if_neg hh]
          exact ih so (lp + 1) hso (fun k hk1 hk2 => hreg k (by omega) hk2)
      · rw [if_neg hp]
        exact ih so (i + 1) hso (fun k hk1 hk2 => hreg k (by omega) hk2)
    · rw [if_neg hi]
      split
      · next h =>
        refine ⟨?_, rfl⟩
        intro c hc
        simp only [List.mem_singleton] at hc
        subst hc
        exact ⟨Nat.le_refl _, by show 0 < len - so; omega, by simp [cend]; omega⟩
      · exact ⟨by intro c hc; simp at hc, rfl⟩

/-- The iteration counter of the scan loop is irrelevant as long as it
    dominates the remaining distance to the end of the text: the fueled
    translation computes the same result for every sufficient counter, so it
    is an exact rendering of the C `while` loop. -/
theorem chunkerLoop_fuel_irrel (t : List Char) (len : Nat) :
    ∀ fuel fuel2 so i, len ≤ i + fuel → len ≤ i + fuel2 →
      chunkerLoop t len fuel so i = chunkerLoop t len fuel2 so i := by
  intro fuel
  induction fuel with
  | zero =>
    intro fuel2 so i h1 h2
    cases fuel2 with
    | zero => rfl
    | succ fuel2 =>
      simp only [chunkerLoop]
      rw [if_neg (by omega : ¬ i < len)]
  | succ fuel ih =>
    intro fuel2 so i h1 h2
    cases fuel2 with
    | zero =>
      simp only [chunkerLoop]
      rw [if_neg (by omega : ¬ i < len)]
    | succ fuel2 =>
      simp only [chunkerLoop]
      by_cases hi : i < len
      · rw [if_pos hi, if_pos hi]
        by_cases hp : is_sentence_punct (byteAt t i) = true
        · rw [if_pos hp, if_pos hp]
          set lp := consume_multiple_punctuation t i len with hlpd
          have hlp1 : i ≤ lp := consumePunctAux_le t len (len - i) i
          by_cases hh : is_end_of_sentence_heuristic t lp len = true
          · rw [if_pos hh, if_pos hh]
            set lp2 := consume_trailing_closers t lp len with hlp2d
            have hq1 : lp ≤ lp2 := consumeClosersAux_le t len (len - lp) lp
            congr 1
            exact ih fuel2 _ (lp2 + 1) (by omega) (by omega)
          · rw [if_neg hh, if_neg hh]
            exact ih fuel2 so (lp + 1) (by omega) (by omega)
        · rw [if_neg hp, if_neg hp]
          exact ih fuel2 so (i + 1) (by omega) (by omega)
      · rw [if_neg hi, if_neg hi]

/-- If the pending start `so` does not point at whitespace, every chunk the
    loop emits starts on a non-whitespace byte (the start of every later chunk
    is produced by the post-terminator whitespace skip). -/
theorem chunkerLoop_starts_not_ws (t : List Char) (len : Nat) :
    ∀ fuel so i, (so < len → is_whitespace (byteAt t so) = false) →
      ∀ c ∈ chunkerLoop t len fuel so i,
        is_whitespace (byteAt t c.start_offset) = false := by
  intro fuel
  induction fuel with
  | zero =>
    intro so i hso c hc
    simp only [chunkerLoop] at hc
    split at hc
    · next h =>
      simp only [List.mem_singleton] at hc
      subst hc
      exact hso h
    · simp at hc
  | succ fuel ih =>
    intro so i hso c hc
    simp only [chunkerLoop] at hc
    by_cases hi : i < len
    · rw [if_pos hi] at hc
      by_cases hp : is_sentence_punct (byteAt t i) = true
      · rw [if_pos hp] at hc
        set lp := consume_multiple_punctuation t i len with hlp
        have hlp2 : lp < len := consumePunctAux_lt_len t len (len - i) i hi
        by_cases hh : is_end_of_sentence_heuristic t lp len = true
        · rw [if_pos hh] at hc
          set lp2 := consume_trailing_closers t lp len with hlp2d
          have hq2 : lp2 < len := consumeClosersAux_lt_len t len (len - lp) lp hlp2
          set so2 := skip_spaces t (lp2 + 1) len with hso2d
          have hs2 : so2 ≤ len := skipSpacesAux_le_len t len (len - (lp2 + 1)) (lp2 + 1) (by omega)
          have hgood2 : so2 < len → is_whitespace (byteAt t so2) = false :=
            fun h => skipSpacesAux_not_ws t len (len - (lp2 + 1)) (lp2 + 1) (by omega) h
          rcases List.mem_append.mp hc with hc1 | hc2
          · by_cases hbl : 0 < lp2 + 1 - so
            · rw [if_pos hbl] at hc1
              simp only [List.mem_singleton] at hc1
              subst hc1
              exact hso (by omega)
            · rw [if_neg hbl] at hc1
              simp at hc1
          · exact ih so2 (lp2 + 1) hgood2 c hc2
        · rw [if_neg hh] at hc
          exact ih so (lp + 1) hso c hc
      · rw [if_neg hp] at hc
        exact ih so (i + 1) hso c hc
    · rw [if_neg hi] at hc
      split at hc
      · next h =>
        simp only [List.mem_singleton] at hc
        subst hc
        exact hso h
      · simp at hc

/-- Every chunk the loop emits other than the first starts on a
    non-whitespace byte, unconditionally. -/
theorem chunkerLoop_tail_not_ws (t : List Char) (len : Nat) :
    ∀ fuel so i, ∀ c ∈ (chunkerLoop t len fuel so i).tail,
      is_whitespace (byteAt t c.start_offset) = false := by
  intro fuel
  induction fuel with
  | zero =>
    intro so i c hc
    simp only [chunkerLoop] at hc
    split at hc <;> simp at hc
  | succ fuel ih =>
    intro so i c hc
    simp only [chunkerLoop] at hc
    by_cases hi : i < len
    · rw [if_pos hi] at hc
      by_cases hp : is_sentence_punct (byteAt t i) = true
      · rw [if_pos hp] at hc
        set lp := consume_multiple_punctuation t i len with hlp
        have hlp2 : lp < len := consumePunctAux_lt_len t len (len - i) i hi
        by_cases hh : is_end_of_sentence_heuristic t lp len = true
        · rw [if_pos hh] at hc
          set lp2 := consume_trailing_closers t lp len with hlp2d
          have hq2 : lp2 < len := consumeClosersAux_lt_len t len (len - lp) lp hlp2
          set so2 := skip_spaces t (lp2 + 1) len with hso2d
          have hgood2 : so2 < len → is_whitespace (byteAt t so2) = false :=
            fun h => skipSpacesAux_not_ws t len (len - (lp2 + 1)) (lp2 + 1) (by omega) h
          by_cases hbl : 0 < lp2 + 1 - so
          · rw [if_pos hbl, List.singleton_append, List.tail_cons] at hc
            exact chunkerLoop_starts_not_ws t len fuel so2 (lp2 + 1) hgood2 c hc
          · rw [if_neg hbl, List.nil_append] at hc
            exact ih so2 (lp2 + 1) c hc
        · rw [if_neg hh] at hc
          exact ih so (lp + 1) c hc
      · rw [if_neg hp] at hc
        exact ih so (i + 1) c hc
    · rw [if_neg hi] at hc
      split at hc <;> simp at hc

/-- If no sentence-punctuation byte of the text is classified as terminal by
    the heuristic, the scan loop never emits a boundary chunk and only the
    leftover chunk `(so, len - so)` remains. -/
theorem chunkerLoop_no_terminal (t : List Char) (len : Nat)
    (hterm : ∀ p, p < len → is_sentence_punct (byteAt t p) = true →
      is_end_of_sentence_heuristic t p len = false) :
    ∀ fuel so i, len ≤ i + fuel →
      chunkerLoop t len fuel so i =
        if so < len then [⟨so, len - so⟩] else [] := by
  intro fuel
  induction fuel with
  | zero => intro so i _; simp [chunkerLoop]
  | succ fuel ih =>
    intro so i hfuel
    simp only [chunkerLoop]
    by_cases hi : i < len
    · rw [if_pos hi]
      by_cases hp : is_sentence_punct (byteAt t i) = true
      · rw [if_pos hp]
        set lp := consume_multiple_punctuation t i len with hlpd
        have hlp1 : i ≤ lp := consumePunctAux_le t len (len - i) i
        have hlp2 : lp < len := consumePunctAux_lt_len t len (len - i) i hi
        have hlpp : is_sentence_punct (byteAt t lp) = true :=
          consumePunctAux_punct t len (len - i) i hp
        rw [if_neg (by rw [hterm lp hlp2 hlpp]; exact Bool.false_ne_true)]
        exact ih so (lp + 1) (by omega)
      · rw [if_neg hp]
        exact ih so (i + 1) (by omega)
    · rw [if_neg hi]

/-! ### The split-point machinery of Pass 2 -/

theorem backScanWs_some_ws (t : List Char) (cs : Nat) :
    ∀ cand j, backScanWs t cs cand = some j → is_whitespace (byteAt t j) = true := by
  intro cand
  induction cand with
  | zero => intro j h; simp [backScanWs] at h
  | succ c ihc =>
    intro j h
    simp only [backScanWs] at h
    split at h
    · split at h
      · next hws =>
        cases h
        exact hws
      · exact ihc j h
    · simp at h

theorem fwdScanWs_some_ws (t : List Char) (ce : Nat) :
    ∀ fuel j0 j, fwdScanWs t ce fuel j0 = some j → is_whitespace (byteAt t j) = true := by
  intro fuel
  induction fuel with
  | zero => intro j0 j h; simp [fwdScanWs] at h
  | succ fuel ihf =>
    intro j0 j h
    simp only [fwdScanWs] at h
    split at h
    · split at h
      · next hws =>
        cases h
        exact hws
      · exact ihf (j0 + 1) j h
    · simp at h

/-- Every possible result of `adjust_for_token_boundary`: the unchanged
    out-of-range candidate, the failure value `0`, or a whitespace index. -/
theorem adjust_spec (t : List Char) (cs ce cand : Nat) :
    (adjust_for_token_boundary t cs ce cand = cand ∧ (cand ≤ cs ∨ ce ≤ cand)) ∨
    adjust_for_token_boundary t cs ce cand = 0 ∨
    is_whitespace (byteAt t (adjust_for_token_boundary t cs ce cand)) = true := by
  unfold adjust_for_token_boundary
  split
  · next h => exact Or.inl ⟨rfl, h⟩
  · next h =>
    rcases hb : backScanWs t cs cand with _ | j
    · rcases hf : fwdScanWs t ce (ce - cand) cand with _ | j2
      · simp [hb, hf]
      · simp only [hb, hf]
        exact Or.inr (Or.inr (fwdScanWs_some_ws t ce (ce - cand) cand j2 hf))
    · simp only [hb]
      exact Or.inr (Or.inr (backScanWs_some_ws t cs cand j hb))

/-- The guarded use of `adjust_for_token_boundary` shared by all
    `find_split_point` heuristics either declines to split (returns
    `end_offset`) or yields a whitespace index strictly inside the chunk. -/
theorem finishAdjust_spec (t : List Char) (s e i : Nat) :
    finishAdjust t s e i = e ∨
      (s < finishAdjust t s e i ∧ finishAdjust t s e i < e ∧
       is_whitespace (byteAt t (finishAdjust t s e i)) = true) := by
  simp only [finishAdjust]
  split
  · next h =>
    rcases adjust_spec t s e i with ⟨heq, hout⟩ | h0 | hws
    · rw [heq] at h
      omega
    · rw [h0] at h
      omega
    · exact Or.inr ⟨h.1, h.2, hws⟩
  · exact Or.inl rfl

/-- `find_split_point` either returns the chunk end (no split) or a
    whitespace index strictly inside the chunk. -/
theorem find_split_point_spec (t : List Char) (s l mn mx : Nat) :
    find_split_point t s l mn mx = s + l ∨
      (s < find_split_point t s l mn mx ∧ find_split_point t s l mn mx < s + l ∧
       is_whitespace (byteAt t (find_split_point t s l mn mx)) = true) := by
  simp only [find_split_point]
  split
  · exact Or.inl rfl
  · split
    · exact Or.inl rfl
    · split
      · exact Or.inl rfl
      · rcases h1 : scanPara t (s + mn) (s + l) (s + mx) with _ | i1
        · rcases h2 : scanTriple t (s + mn) (s + l) (s + mx) with _ | i2
          · rcases h3 : scanNewline t (s + mn) (s + mx) with _ | i3
            · rcases h4 : scanSeam t (s + mn) (s + l) (s + mx) with _ | i4
              · rcases h5 : scanAnyWs t (s + mn) (s + mx) with _ | i5
                · simp only [h1, h2, h3, h4, h5]
                  exact finishAdjust_spec t s (s + l) (s + mx)
                · simp only [h1, h2, h3, h4, h5]
                  exact finishAdjust_spec t s (s + l) i5
              · simp only [h1, h2, h3, h4]
                exact finishAdjust_spec t s (s + l) i4
            · simp only [h1, h2, h3]
              exact finishAdjust_spec t s (s + l) i3
          · simp only [h1, h2]
            exact finishAdjust_spec t s (s + l) i2
        · simp only [h1]
          exact finishAdjust_spec t s (s + l) i1

/-! ### Coverage, partitions, and the splitting loop -/

theorem cend_def (c : Chunk) : cend c = c.start_offset + c.length := rfl

theorem coveredBy_iff (cs : List Chunk) (k : Nat) :
    coveredBy cs k = true ↔ ∃ c ∈ cs, c.start_offset ≤ k ∧ k < cend c := by
  simp [coveredBy, List.any_eq_true]

theorem coveredBy_of_mem {cs : List Chunk} {c : Chunk} {k : Nat}
    (hc : c ∈ cs) (h1 : c.start_offset ≤ k) (h2 : k < cend c) : coveredBy cs k = true :=
  (coveredBy_iff cs k).mpr ⟨c, hc, h1, h2⟩

theorem coveredBy_append (xs ys : List Chunk) (k : Nat) :
    coveredBy (xs ++ ys) k = (coveredBy xs k || coveredBy ys k) := by
  simp [coveredBy, List.any_append]

theorem getLast?_eq_none_nil : ∀ (l : List Chunk), l.getLast? = none → l = [] := by
  intro l h
  cases l with
  | nil => rfl
  | cons a l2 =>
    exfalso
    induction l2 generalizing a with
    | nil => simp [List.getLast?] at h
    | cons b l3 ih =>
      rw [List.getLast?_cons_cons] at h
      exact ih b h

theorem getLast?_mem : ∀ (l : List Chunk) (lo : Chunk), l.getLast? = some lo → lo ∈ l := by
  intro l
  induction l with
  | nil => intro lo h; simp at h
  | cons a l2 ih =>
    intro lo h
    cases l2 with
    | nil =>
      rw [List.getLast?_singleton] at h
      cases h
      exact List.mem_singleton_self a
    | cons b l3 =>
      rw [List.getLast?_cons_cons] at h
      exact List.mem_cons_of_mem a (ih lo h)

theorem getLast?_decomp : ∀ (l : List Chunk) (lo : Chunk), l.getLast? = some lo →
    l = l.dropLast ++ [lo] := by
  intro l
  induction l with
  | nil => intro lo h; simp at h
  | cons a l2 ih =>
    intro lo h
    cases l2 with
    | nil =>
      rw [List.getLast?_singleton] at h
      cases h
      rfl
    | cons b l3 =>
      rw [List.getLast?_cons_cons] at h
      have h2 := ih lo h
      calc a :: b :: l3 = a :: ((b :: l3).dropLast ++ [lo]) := by rw [← h2]
        _ = (a :: b :: l3).dropLast ++ [lo] := by simp [List.dropLast]

theorem mem_dropLast {l : List Chunk} {c : Chunk} (h : c ∈ l.dropLast) : c ∈ l :=
  (List.dropLast_sublist l).subset h

/-- `ps` partitions the half-open interval `[a, b)` into consecutive
    positive-length chunks. -/
def partitions : Nat → Nat → List Chunk → Prop
  | a, b, [] => a = b
  | a, b, c :: rest => c.start_offset = a ∧ a < cend c ∧ partitions (cend c) b rest

theorem partitions_le : ∀ (ps : List Chunk) (a b : Nat), partitions a b ps → a ≤ b := by
  intro ps
  induction ps with
  | nil => intro a b h; exact Nat.le_of_eq h
  | cons c rest ih =>
    intro a b h
    have := ih (cend c) b h.2.2
    have := h.2.1
    omega

theorem partitions_mem : ∀ (ps : List Chunk) (a b : Nat), partitions a b ps →
    ∀ c ∈ ps, a ≤ c.start_offset ∧ 0 < c.length ∧ cend c ≤ b := by
  intro ps
  induction ps with
  | nil => intro a b _ c hc; simp at hc
  | cons d rest ih =>
    intro a b h c hc
    obtain ⟨hda, hlt, hrest⟩ := h
    rcases List.mem_cons.mp hc with rfl | hc2
    · refine ⟨Nat.le_of_eq hda.symm, ?_, partitions_le rest (cend c) b hrest⟩
      have := cend_def c
      omega
    · obtain ⟨h1, h2, h3⟩ := ih (cend d) b hrest c hc2
      exact ⟨by omega, h2, h3⟩

theorem partitions_sorted : ∀ (ps : List Chunk) (a b : Nat), partitions a b ps →
    sortedChunks ps = true := by
  intro ps
  induction ps with
  | nil => intro a b _; rfl
  | cons c rest ih =>
    intro a b h
    obtain ⟨_, _, hrest⟩ := h
    apply sortedChunks_cons_of
    · exact ih (cend c) b hrest
    · intro d hd
      exact (partitions_mem rest (cend c) b hrest d hd).1

theorem partitions_getLast : ∀ (ps : List Chunk) (a b : Nat), partitions a b ps →
    ∀ lastc, ps.getLast? = some lastc → cend lastc = b := by
  intro ps
  induction ps with
  | nil => intro a b _ lastc hl; simp at hl
  | cons c rest ih =>
    intro a b h lastc hl
    cases rest with
    | nil =>
      rw [List.getLast?_singleton] at hl
      cases hl
      exact h.2.2
    | cons d rest2 =>
      rw [List.getLast?_cons_cons] at hl
      exact ih (cend c) b h.2.2 lastc hl

theorem partitions_cover : ∀ (ps : List Chunk) (a b : Nat), partitions a b ps →
    ∀ k, a ≤ k → k < b → coveredBy ps k = true := by
  intro ps
  induction ps with
  | nil =>
    intro a b h k h1 h2
    have : a = b := h
    omega
  | cons c rest ih =>
    intro a b h k h1 h2
    obtain ⟨hca, hlt, hrest⟩ := h
    by_cases hk : k < cend c
    · exact coveredBy_of_mem (List.mem_cons_self c rest) (by omega) hk
    · obtain ⟨d, hd, hd1, hd2⟩ :=
        (coveredBy_iff rest k).mp (ih (cend c) b hrest k (by omega) h2)
      exact coveredBy_of_mem (List.mem_cons_of_mem c hd) hd1 hd2

theorem splitLoop_ne_nil (t : List Char) (mn mx : Nat) :
    ∀ fuel r acc, splitLoop t mn mx fuel r acc ≠ [] := by
  intro fuel
  induction fuel with
  | zero => intro r acc; simp [splitLoop]
  | succ fuel ih =>
    intro r acc
    simp only [splitLoop]
    split
    · split
      · simp
      · exact ih _ _
    · simp

theorem partitions_single (r : Chunk) (hr : 0 < r.length) :
    partitions r.start_offset (cend r) [r] :=
  ⟨rfl, by have := cend_def r; omega, rfl⟩

/-- The splitting loop appends to `acc` a non-empty partition of the chunk
    `r`, and every internal boundary it creates is a whitespace index
    (accepted split points pass through `adjust_for_token_boundary`). -/
theorem splitLoop_spec (t : List Char) (mn mx : Nat) :
    ∀ fuel (r : Chunk) (acc : List Chunk), 0 < r.length →
      ∃ ps, splitLoop t mn mx fuel r acc = acc ++ ps ∧
        partitions r.start_offset (cend r) ps ∧ ps ≠ [] ∧
        ∀ c ∈ ps,
          (c.start_offset = r.start_offset ∨
             is_whitespace (byteAt t c.start_offset) = true) ∧
          (cend c = cend r ∨ is_whitespace (byteAt t (cend c)) = true) := by
  intro fuel
  induction fuel with
  | zero =>
    intro r acc hr
    refine ⟨[r], rfl, partitions_single r hr, by simp, ?_⟩
    intro c hc
    simp only [List.mem_singleton] at hc
    subst hc
    exact ⟨Or.inl rfl, Or.inl rfl⟩
  | succ fuel ih =>
    intro r acc hr
    simp only [splitLoop]
    by_cases hlen : mx < r.length
    · rw [if_pos hlen]
      set sp := find_split_point t r.start_offset r.length mn mx with hspd
      by_cases hrej : sp ≤ r.start_offset ∨ cend r ≤ sp
      · rw [if_pos hrej]
        refine ⟨[r], rfl, partitions_single r hr, by simp, ?_⟩
        intro c hc
        simp only [List.mem_singleton] at hc
        subst hc
        exact ⟨Or.inl rfl, Or.inl rfl⟩
      · rw [if_neg hrej]
        push_neg at hrej
        obtain ⟨hsp1, hsp2⟩ := hrej
        have hws : is_whitespace (byteAt t sp) = true := by
          rcases find_split_point_spec t r.start_offset r.length mn mx with he | ⟨_, _, hw⟩
          · rw [← hspd, ← cend_def] at he
            omega
          · rw [← hspd] at hw
            exact hw
        have hr2 : (0 : Nat) < cend r - sp := by omega
        obtain ⟨ps2, hps2eq, hps2part, hps2ne, hps2props⟩ :=
          ih ⟨sp, cend r - sp⟩ (acc ++ [⟨r.start_offset, sp - r.start_offset⟩]) hr2
        have hcp : cend ⟨r.start_offset, sp - r.start_offset⟩ = sp := by
          show r.start_offset + (sp - r.start_offset) = sp
          omega
        have hcr2 : cend ⟨sp, cend r - sp⟩ = cend r := by
          show sp + (cend r - sp) = cend r
          omega
        refine ⟨⟨r.start_offset, sp - r.start_offset⟩ :: ps2, ?_, ?_, by simp, ?_⟩
        · rw [hps2eq, List.append_assoc, List.singleton_append]
        · refine ⟨rfl, ?_, ?_⟩
          · rw [hcp]; exact hsp1
          · rw [hcp]
            rw [hcr2] at hps2part
            exact hps2part
        · intro c hc
          rcases List.mem_cons.mp hc with rfl | hc2
          · exact ⟨Or.inl rfl, Or.inr (by rw [hcp]; exact hws)⟩
          · obtain ⟨hcs, hce⟩ := hps2props c hc2
            constructor
            · rcases hcs with hcs | hcs
              · exact Or.inr (by rw [hcs]; exact hws)
              · exact Or.inr hcs
            · rcases hce with hce | hce
              · exact Or.inl (by rw [hce, hcr2])
              · exact Or.inr hce
    · rw [if_neg hlen]
      refine ⟨[r], rfl, partitions_single r hr, by simp, ?_⟩
      intro c hc
      simp only [List.mem_singleton] at hc
      subst hc
      exact ⟨Or.inl rfl, Or.inl rfl⟩

/-- The iteration counter of the splitting loop is irrelevant as long as it
    dominates the remaining chunk length, because each accepted split strictly
    shrinks the remaining chunk: the fueled translation with counter
    `current.length + 1` is an exact rendering of the C `while` loop. -/
theorem splitLoop_fuel_irrel (t : List Char) (mn mx : Nat) :
    ∀ fuel fuel2 (r : Chunk) (acc : List Chunk), r.length ≤ fuel → r.length ≤ fuel2 →
      splitLoop t mn mx fuel r acc = splitLoop t mn mx fuel2 r acc := by
  intro fuel
  induction fuel with
  | zero =>
    intro fuel2 r acc h1 h2
    cases fuel2 with
    | zero => rfl
    | succ fuel2 =>
      simp only [splitLoop]
      rw [if_neg (by omega : ¬ mx < r.length)]
  | succ fuel ih =>
    intro fuel2 r acc h1 h2
    cases fuel2 with
    | zero =>
      simp only [splitLoop]
      rw [if_neg (by omega : ¬ mx < r.length)]
    | succ fuel2 =>
      simp only [splitLoop]
      by_cases hlen : mx < r.length
      · rw [if_pos hlen, if_pos hlen]
        set sp := find_split_point t r.start_offset r.length mn mx with hspd
        by_cases hrej : sp ≤ r.start_offset ∨ cend r ≤ sp
        · rw [if_pos hrej, if_pos hrej]
        · rw [if_neg hrej, if_neg hrej]
          push_neg at hrej
          have hlt : cend r - sp < r.length := by
            have := cend_def r
            omega
          exact ih fuel2 ⟨sp, cend r - sp⟩ _
            (by show cend r - sp ≤ fuel; omega)
            (by show cend r - sp ≤ fuel2; omega)
      · rw [if_neg hlen, if_neg hlen]

/-! ### The re-chunking loop: totality -/

theorem backwardMergeAttempt_crash {current : Chunk} {i : Nat} {out : List Chunk}
    {mx : Nat} (h : backwardMergeAttempt current i out mx = .crash) :
    0 < i ∧ out = [] := by
  unfold backwardMergeAttempt at h
  split at h
  · next hi =>
    rcases hl : out.getLast? with _ | last
    · exact ⟨hi, getLast?_eq_none_nil out hl⟩
    · simp only [hl] at h
      split at h <;> simp at h
  · simp at h

theorem backwardMergeAttempt_merged {current : Chunk} {i : Nat} {out : List Chunk}
    {mx : Nat} {out2 : List Chunk}
    (h : backwardMergeAttempt current i out mx = .merged out2) :
    0 < i ∧ ∃ last, out.getLast? = some last ∧
      cend current - last.start_offset ≤ mx ∧
      out2 = out.dropLast ++ [⟨last.start_offset, cend current - last.start_offset⟩] := by
  unfold backwardMergeAttempt at h
  split at h
  · next hi =>
    rcases hl : out.getLast? with _ | last
    · simp only [hl] at h
      exact BwOutcome.noConfusion h
    · simp only [hl] at h
      split at h
      · next hcl =>
        refine ⟨hi, last, rfl, hcl, ?_⟩
        cases h
        rfl
      · simp at h
  · simp at h

/-- The re-chunking loop never performs the invalid access modelled by
    `BwOutcome.crash`: whenever the input index `i` is positive, the output
    buffer is non-empty, because every earlier iteration appended at least one
    chunk or mutated the last one. -/
theorem rechunkLoop_total (t : List Char) (mn mx : Nat) :
    ∀ fuel (rem : List Chunk), ∀ (i : Nat) (out : List Chunk),
      (0 < i → out ≠ []) →
      (rechunkLoop t mn mx fuel rem i out).isSome = true := by
  intro fuel
  induction fuel with
  | zero =>
    intro rem i out _
    simp [rechunkLoop]
  | succ fuel ih =>
    intro rem i out hinv
    cases rem with
    | nil => simp [rechunkLoop]
    | cons current rest =>
      simp only [rechunkLoop]
      by_cases h1 : mn ≤ current.length ∧ current.length ≤ mx
      · rw [if_pos h1]
        exact ih rest (i + 1) _ (fun _ => by simp)
      · rw [if_neg h1]
        by_cases h2 : current.length < mn
        · rw [if_pos h2]
          rcases hbw : backwardMergeAttempt current i out mx with _ | out2 | _
          · obtain ⟨hi, hnil⟩ := backwardMergeAttempt_crash hbw
            exact absurd hnil (hinv hi)
          · obtain ⟨_, last, _, _, hout2⟩ := backwardMergeAttempt_merged hbw
            exact ih rest (i + 1) out2 (fun _ => by subst hout2; simp)
          · cases rest with
            | nil => rfl
            | cons next rest2 =>
              dsimp only
              by_cases h3 : cend next - current.start_offset ≤ mx
              · rw [if_pos h3]
                exact ih rest2 (i + 2) _ (fun _ => by simp)
              · rw [if_neg h3]
                exact ih (next :: rest2) (i + 1) _ (fun _ => by simp)
        · rw [if_neg h2]
          exact ih rest (i + 1) _
            (fun _ => splitLoop_ne_nil t mn mx (current.length + 1) current out)

/-- The iteration counter of the re-chunking loop is irrelevant as long as it
    dominates the number of remaining input chunks: the fueled translation
    with counter `first_pass_chunks.length` is an exact rendering of the C
    `for` loop. -/
theorem rechunkLoop_fuel_irrel (t : List Char) (mn mx : Nat) :
    ∀ fuel fuel2 (rem : List Chunk) (i : Nat) (out : List Chunk),
      rem.length ≤ fuel → rem.length ≤ fuel2 →
      rechunkLoop t mn mx fuel rem i out = rechunkLoop t mn mx fuel2 rem i out := by
  intro fuel
  induction fuel with
  | zero =>
    intro fuel2 rem i out h1 _
    have hremnil : rem = [] := List.length_eq_zero.mp (Nat.le_zero.mp h1)
    subst hremnil
    cases fuel2 <;> rfl
  | succ fuel ih =>
    intro fuel2 rem i out h1 h2
    cases rem with
    | nil => cases fuel2 <;> rfl
    | cons current rest =>
      cases fuel2 with
      | zero =>
        simp only [List.length_cons] at h2
        omega
      | succ fuel2 =>
        have hr1 : rest.length ≤ fuel := by
          simp only [List.length_cons] at h1
          omega
        have hr2 : rest.length ≤ fuel2 := by
          simp only [List.length_cons] at h2
          omega
        simp only [rechunkLoop]
        by_cases hc1 : mn ≤ current.length ∧ current.length ≤ mx
        · rw [if_pos hc1, if_pos hc1]
          exact ih fuel2 rest (i + 1) _ hr1 hr2
        · rw [if_neg hc1, if_neg hc1]
          by_cases hc2 : current.length < mn
          · rw [if_pos hc2, if_pos hc2]
            rcases hbw : backwardMergeAttempt current i out mx with _ | out2 | _
            · rfl
            · exact ih fuel2 rest (i + 1) out2 hr1 hr2
            · cases rest with
              | nil => rfl
              | cons next rest2 =>
                dsimp only
                have hr3 : rest2.length ≤ fuel := by
                  simp only [List.length_cons] at h1
                  omega
                have hr4 : rest2.length ≤ fuel2 := by
                  simp only [List.length_cons] at h2
                  omega
                by_cases hc3 : cend next - current.start_offset ≤ mx
                · rw [if_pos hc3, if_pos hc3]
                  exact ih fuel2 rest2 (i + 2) _ hr3 hr4
                · rw [if_neg hc3, if_neg hc3]
                  exact ih fuel2 (next :: rest2) (i + 1) _ hr1 hr2
          · rw [if_neg hc2, if_neg hc2]
            exact ih fuel2 rest (i + 1) _ hr1 hr2

/-! ### The re-chunking loop: the main invariant -/

theorem sortedChunks_append_of (xs ys : List Chunk)
    (hxs : sortedChunks xs = true) (hys : sortedChunks ys = true)
    (hlink : ∀ lo, xs.getLast? = some lo → ∀ hd, ys.head? = some hd →
      cend lo ≤ hd.start_offset) : sortedChunks (xs ++ ys) = true := by
  induction xs with
  | nil => simpa using hys
  | cons a xs ih =>
    cases xs with
    | nil =>
      cases ys with
      | nil => simpa using hxs
      | cons b ys2 =>
        simp only [List.singleton_append, sortedChunks, Bool.and_eq_true,
          decide_eq_true_eq]
        exact ⟨hlink a rfl b rfl, hys⟩
    | cons c xs2 =>
      have h1 := sortedChunks_head_le a c xs2 hxs
      have h2 := ih (sortedChunks_tail a (c :: xs2) hxs)
        (fun lo hlo => hlink lo (by rw [List.getLast?_cons_cons]; exact hlo))
      simp only [List.cons_append] at h2 ⊢
      simp only [sortedChunks, Bool.and_eq_true, decide_eq_true_eq]
      exact ⟨h1, h2⟩

theorem forall_mem_concat {P : Chunk → Prop} {l : List Chunk} {b : Chunk}
    (hl : ∀ c ∈ l, P c) (hb : P b) : ∀ c ∈ l ++ [b], P c := by
  intro c hc
  rcases List.mem_append.mp hc with h | h
  · exact hl c h
  · simp only [List.mem_singleton] at h
    subst h
    exact hb

theorem coveredBy_append_left {out l : List Chunk} {k : Nat}
    (h : coveredBy out k = true) : coveredBy (out ++ l) k = true := by
  rw [coveredBy_append, h, Bool.true_or]

theorem coveredBy_append_right {out l : List Chunk} {k : Nat}
    (h : coveredBy l k = true) : coveredBy (out ++ l) k = true := by
  rw [coveredBy_append, h, Bool.or_true]

/-- The full invariant of the re-chunking loop: over a sorted, positive,
    in-bounds remaining input (a sub-collection of the full first-pass list
    `inp`), a well-formed output prefix whose last chunk ends before the next
    input chunk, whose chunks sit inside the hull of `inp`, and whose
    boundaries are input boundaries or whitespace, the loop produces an output
    with the same shape that additionally covers everything `out` and `rem`
    covered. -/
theorem rechunkLoop_master (t : List Char) (mn mx L : Nat) (inp : List Chunk) :
    ∀ fuel (rem : List Chunk) (i : Nat) (out out' : List Chunk),
      rem.length ≤ fuel →
      (∀ c ∈ rem, c ∈ inp) →
      (∀ c ∈ rem, 0 < c.length ∧ cend c ≤ L) →
      sortedChunks rem = true →
      (∀ c ∈ out, 0 < c.length ∧ cend c ≤ L) →
      sortedChunks out = true →
      (∀ lo, out.getLast? = some lo → ∀ hd, rem.head? = some hd →
        cend lo ≤ hd.start_offset) →
      (∀ c ∈ out, (∃ c1 ∈ inp, c1.start_offset ≤ c.start_offset) ∧
         ∃ c2 ∈ inp, cend c ≤ cend c2) →
      (∀ c ∈ out,
         ((∃ c1 ∈ inp, c1.start_offset = c.start_offset ∨ cend c1 = c.start_offset) ∨
            is_whitespace (byteAt t c.start_offset) = true) ∧
         ((∃ c1 ∈ inp, c1.start_offset = cend c ∨ cend c1 = cend c) ∨
            is_whitespace (byteAt t (cend c)) = true)) →
      rechunkLoop t mn mx fuel rem i out = some out' →
      ((∀ c ∈ out', 0 < c.length ∧ cend c ≤ L) ∧ sortedChunks out' = true) ∧
      (∀ k, coveredBy out k = true → coveredBy out' k = true) ∧
      (∀ c ∈ rem, ∀ k, c.start_offset ≤ k → k < cend c → coveredBy out' k = true) ∧
      (∀ c ∈ out', (∃ c1 ∈ inp, c1.start_offset ≤ c.start_offset) ∧
         ∃ c2 ∈ inp, cend c ≤ cend c2) ∧
      (∀ c ∈ out',
         ((∃ c1 ∈ inp, c1.start_offset = c.start_offset ∨ cend c1 = c.start_offset) ∨
            is_whitespace (byteAt t c.start_offset) = true) ∧
         ((∃ c1 ∈ inp, c1.start_offset = cend c ∨ cend c1 = cend c) ∨
            is_whitespace (byteAt t (cend c)) = true)) := by
  intro fuel
  induction fuel with
  | zero =>
    intro rem i out out' hlen hmem hok hsrt hokO hsrtO hlink hhull hbnd hres
    have hremnil : rem = [] := List.length_eq_zero.mp (Nat.le_zero.mp hlen)
    subst hremnil
    cases hres
    exact ⟨⟨hokO, hsrtO⟩, fun k hk => hk, by intro c hc; simp at hc, hhull, hbnd⟩
  | succ fuel ih =>
    intro rem i out out' hlen hmem hok hsrt hokO hsrtO hlink hhull hbnd hres
    cases rem with
    | nil =>
      cases hres
      exact ⟨⟨hokO, hsrtO⟩, fun k hk => hk, by intro c hc; simp at hc, hhull, hbnd⟩
    | cons current rest =>
      have hlenr : rest.length ≤ fuel := by
        simp only [List.length_cons] at hlen
        omega
      have hcurmem : current ∈ inp := hmem current (List.mem_cons_self _ _)
      have hcur := hok current (List.mem_cons_self _ _)
      have hccur : current.start_offset < cend current := by
        have := cend_def current
        omega
      have hrestMem : ∀ c ∈ rest, c ∈ inp :=
        fun c hc => hmem c (List.mem_cons_of_mem _ hc)
      have hrestOk : ∀ c ∈ rest, 0 < c.length ∧ cend c ≤ L :=
        fun c hc => hok c (List.mem_cons_of_mem _ hc)
      have hrestSrt : sortedChunks rest = true := sortedChunks_tail _ _ hsrt
      have hlink2 : ∀ hd, rest.head? = some hd → cend current ≤ hd.start_offset := by
        intro hd hhd
        cases rest with
        | nil => simp at hhd
        | cons b rest2 =>
          rw [List.head?_cons] at hhd
          injection hhd with hbd
          subst hbd
          exact sortedChunks_head_le current _ rest2 hsrt
      simp only [rechunkLoop] at hres
      by_cases h1 : mn ≤ current.length ∧ current.length ≤ mx
      · -- Case 1: in range, append as-is
        rw [if_pos h1] at hres
        obtain ⟨hwf, hmono, hcov, hhull2, hbnd2⟩ :=
          ih rest (i + 1) (out ++ [current]) out' hlenr hrestMem hrestOk hrestSrt
            (forall_mem_concat hokO hcur)
            ((sortedChunks_concat_iff out current).mpr
              ⟨hsrtO, fun lo hlo => hlink lo hlo current rfl⟩)
            (by
              intro lo hlo hd hhd
              rw [List.getLast?_concat] at hlo
              cases hlo
              exact hlink2 hd hhd)
            (forall_mem_concat hhull
              ⟨⟨current, hcurmem, Nat.le_refl _⟩, ⟨current, hcurmem, Nat.le_refl _⟩⟩)
            (forall_mem_concat hbnd
              ⟨Or.inl ⟨current, hcurmem, Or.inl rfl⟩, Or.inl ⟨current, hcurmem, Or.inr rfl⟩⟩)
            hres
        refine ⟨hwf, ?_, ?_, hhull2, hbnd2⟩
        · exact fun k hk => hmono k (coveredBy_append_left hk)
        · intro c hc k hk1 hk2
          rcases List.mem_cons.mp hc with rfl | hc2
          · exact hmono k (coveredBy_append_right (coveredBy_of_mem
              (List.mem_singleton_self c) hk1 hk2))
          · exact hcov c hc2 k hk1 hk2
      · rw [if_neg h1] at hres
        by_cases h2 : current.length < mn
        · rw [if_pos h2] at hres
          rcases hbw : backwardMergeAttempt current i out mx with _ | out2 | _
          · rw [hbw] at hres
            simp at hres
          · -- Case 2a: backward merge, mutate the last output chunk
            rw [hbw] at hres
            simp only at hres
            obtain ⟨hi, last, hl, hcl, hout2⟩ := backwardMergeAttempt_merged hbw
            have hlastmem : last ∈ out := getLast?_mem out last hl
            have hdecomp : out = out.dropLast ++ [last] := getLast?_decomp out last hl
            have hlinkcur : cend last ≤ current.start_offset := hlink last hl current rfl
            have hlaststart : last.start_offset ≤ cend last := by
              have := cend_def last
              omega
            set nc : Chunk := ⟨last.start_offset, cend current - last.start_offset⟩
              with hncdef
            have hnc_pos : 0 < nc.length := by
              show 0 < cend current - last.start_offset
              omega
            have hnc_end : cend nc = cend current := by
              show last.start_offset + (cend current - last.start_offset) = cend current
              omega
            have hdl := (sortedChunks_concat_iff out.dropLast last).mp
              (hdecomp ▸ hsrtO)
            have hokDL : ∀ c ∈ out.dropLast, 0 < c.length ∧ cend c ≤ L :=
              fun c hc => hokO c (mem_dropLast hc)
            obtain ⟨hwf, hmono, hcov, hhull2, hbnd2⟩ :=
              ih rest (i + 1) out2 out' hlenr hrestMem hrestOk hrestSrt
                (hout2 ▸ forall_mem_concat hokDL
                  ⟨hnc_pos, by rw [hnc_end]; exact hcur.2⟩)
                (hout2 ▸ (sortedChunks_concat_iff out.dropLast nc).mpr
                  ⟨hdl.1, fun lo hlo => hdl.2 lo hlo⟩)
                (by
                  intro lo hlo hd hhd
                  rw [hout2, List.getLast?_concat] at hlo
                  cases hlo
                  rw [hnc_end]
                  exact hlink2 hd hhd)
                (hout2 ▸ forall_mem_concat
                  (fun c hc => hhull c (mem_dropLast hc))
                  ⟨(hhull last hlastmem).1, ⟨current, hcurmem, by rw [hnc_end]⟩⟩)
                (hout2 ▸ forall_mem_concat
                  (fun c hc => hbnd c (mem_dropLast hc))
                  ⟨(hbnd last hlastmem).1,
                   Or.inl ⟨current, hcurmem, Or.inr hnc_end.symm⟩⟩)
                hres
            have hcovmono : ∀ k, coveredBy out k = true → coveredBy out2 k = true := by
              intro k hk
              obtain ⟨c, hc, hk1, hk2⟩ := (coveredBy_iff out k).mp hk
              rw [hdecomp] at hc
              rcases List.mem_append.mp hc with h | h
              · exact coveredBy_of_mem (by rw [hout2]; exact List.mem_append_left _ h)
                  hk1 hk2
              · simp only [List.mem_singleton] at h
                subst h
                refine coveredBy_of_mem (c := nc)
                  (by rw [hout2]; exact List.mem_append_right _ (List.mem_singleton_self _))
                  hk1 ?_
                rw [hnc_end]
                omega
            refine ⟨hwf, ?_, ?_, hhull2, hbnd2⟩
            · exact fun k hk => hmono k (hcovmono k hk)
            · intro c hc k hk1 hk2
              rcases List.mem_cons.mp hc with rfl | hc2
              · refine hmono k (coveredBy_of_mem (c := nc)
                  (by rw [hout2]; exact List.mem_append_right _ (List.mem_singleton_self _))
                  (by show last.start_offset ≤ k; omega) ?_)
                rw [hnc_end]
                exact hk2
              · exact hcov c hc2 k hk1 hk2
          · -- Case 2b: no backward merge
            rw [hbw] at hres
            simp only at hres
            cases rest with
            | nil =>
              -- append as-is, input exhausted
              cases hres
              refine ⟨⟨forall_mem_concat hokO hcur, ?_⟩, ?_, ?_, ?_, ?_⟩
              · exact (sortedChunks_concat_iff out current).mpr
                  ⟨hsrtO, fun lo hlo => hlink lo hlo current rfl⟩
              · exact fun k hk => coveredBy_append_left hk
              · intro c hc k hk1 hk2
                rcases List.mem_cons.mp hc with rfl | hc2
                · exact coveredBy_append_right
                    (coveredBy_of_mem (List.mem_singleton_self c) hk1 hk2)
                · simp at hc2
              · exact forall_mem_concat hhull
                  ⟨⟨current, hcurmem, Nat.le_refl _⟩, ⟨current, hcurmem, Nat.le_refl _⟩⟩
              · exact forall_mem_concat hbnd
                  ⟨Or.inl ⟨current, hcurmem, Or.inl rfl⟩,
                   Or.inl ⟨current, hcurmem, Or.inr rfl⟩⟩
            | cons next rest2 =>
              dsimp only at hres
              have hnextmem : next ∈ inp := hrestMem next (List.mem_cons_self _ _)
              have hnext := hrestOk next (List.mem_cons_self _ _)
              have hcn : cend current ≤ next.start_offset :=
                sortedChunks_head_le current next rest2 hsrt
              have hnn : next.start_offset < cend next := by
                have := cend_def next
                omega
              by_cases h3 : cend next - current.start_offset ≤ mx
              · -- Case 2c: forward merge with the next chunk
                rw [if_pos h3] at hres
                set mc : Chunk :=
                  ⟨current.start_offset, cend next - current.start_offset⟩ with hmcdef
                have hmc_pos : 0 < mc.length := by
                  show 0 < cend next - current.start_offset
                  omega
                have hmc_end : cend mc = cend next := by
                  show current.start_offset + (cend next - current.start_offset) = cend next
                  omega
                have hlenr2 : rest2.length ≤ fuel := by
                  simp only [List.length_cons] at hlen
                  omega
                have hrest2Mem : ∀ c ∈ rest2, c ∈ inp :=
                  fun c hc => hrestMem c (List.mem_cons_of_mem _ hc)
                have hrest2Ok : ∀ c ∈ rest2, 0 < c.length ∧ cend c ≤ L :=
                  fun c hc => hrestOk c (List.mem_cons_of_mem _ hc)
                have hrest2Srt : sortedChunks rest2 = true :=
                  sortedChunks_tail _ _ hrestSrt
                have hlink3 : ∀ hd, rest2.head? = some hd →
                    cend next ≤ hd.start_offset := by
                  intro hd hhd
                  cases rest2 with
                  | nil => simp at hhd
                  | cons b rest3 =>
                    rw [List.head?_cons] at hhd
                    injection hhd with hbd
                    subst hbd
                    exact sortedChunks_head_le next _ rest3 hrestSrt
                obtain ⟨hwf, hmono, hcov, hhull2, hbnd2⟩ :=
                  ih rest2 (i + 2) (out ++ [mc]) out' hlenr2 hrest2Mem hrest2Ok hrest2Srt
                    (forall_mem_concat hokO
                      ⟨hmc_pos, by rw [hmc_end]; exact hnext.2⟩)
                    ((sortedChunks_concat_iff out mc).mpr
                      ⟨hsrtO, fun lo hlo => hlink lo hlo current rfl⟩)
                    (by
                      intro lo hlo hd hhd
                      rw [List.getLast?_concat] at hlo
                      cases hlo
                      rw [hmc_end]
                      exact hlink3 hd hhd)
                    (forall_mem_concat hhull
                      ⟨⟨current, hcurmem, Nat.le_refl _⟩,
                       ⟨next, hnextmem, by rw [hmc_end]⟩⟩)
                    (forall_mem_concat hbnd
                      ⟨Or.inl ⟨current, hcurmem, Or.inl rfl⟩,
                       Or.inl ⟨next, hnextmem, Or.inr hmc_end.symm⟩⟩)
                    hres
                refine ⟨hwf, ?_, ?_, hhull2, hbnd2⟩
                · exact fun k hk => hmono k (coveredBy_append_left hk)
                · intro c hc k hk1 hk2
                  rcases List.mem_cons.mp hc with rfl | hc2
                  · refine hmono k (coveredBy_append_right
                      (coveredBy_of_mem (List.mem_singleton_self mc) hk1 ?_))
                    rw [hmc_end]
                    omega
                  · rcases List.mem_cons.mp hc2 with rfl | hc3
                    · refine hmono k (coveredBy_append_right
                        (coveredBy_of_mem (List.mem_singleton_self mc)
                          (by show current.start_offset ≤ k; omega) ?_))
                      rw [hmc_end]
                      exact hk2
                    · exact hcov c hc3 k hk1 hk2
              · -- Case 2d: no merge possible, append as-is
                rw [if_neg h3] at hres
                obtain ⟨hwf, hmono, hcov, hhull2, hbnd2⟩ :=
                  ih (next :: rest2) (i + 1) (out ++ [current]) out' hlenr hrestMem
                    hrestOk hrestSrt
                    (forall_mem_concat hokO hcur)
                    ((sortedChunks_concat_iff out current).mpr
                      ⟨hsrtO, fun lo hlo => hlink lo hlo current rfl⟩)
                    (by
                      intro lo hlo hd hhd
                      rw [List.getLast?_concat] at hlo
                      cases hlo
                      exact hlink2 hd hhd)
                    (forall_mem_concat hhull
                      ⟨⟨current, hcurmem, Nat.le_refl _⟩,
                       ⟨current, hcurmem, Nat.le_refl _⟩⟩)
                    (forall_mem_concat hbnd
                      ⟨Or.inl ⟨current, hcurmem, Or.inl rfl⟩,
                       Or.inl ⟨current, hcurmem, Or.inr rfl⟩⟩)
                    hres
                refine ⟨hwf, ?_, ?_, hhull2, hbnd2⟩
                · exact fun k hk => hmono k (coveredBy_append_left hk)
                · intro c hc k hk1 hk2
                  rcases List.mem_cons.mp hc with rfl | hc2
                  · exact hmono k (coveredBy_append_right
                      (coveredBy_of_mem (List.mem_singleton_self c) hk1 hk2))
                  · exact hcov c hc2 k hk1 hk2
        · -- Case 3: too long, split
          rw [if_neg h2] at hres
          have hmxlt : mx < current.length := by
            rcases Decidable.not_and_iff_or_not.mp h1 with h | h <;> omega
          obtain ⟨ps, hps_eq, hps_part, hps_ne, hps_props⟩ :=
            splitLoop_spec t mn mx (current.length + 1) current out (by omega)
          rw [hps_eq] at hres
          have hps_mem := partitions_mem ps current.start_offset (cend current) hps_part
          have hlastps : ∃ lastp, ps.getLast? = some lastp := by
            cases hgl : ps.getLast? with
            | none => exact absurd (getLast?_eq_none_nil ps hgl) hps_ne
            | some lastp => exact ⟨lastp, rfl⟩
          obtain ⟨lastp, hlastp⟩ := hlastps
          have hlastp_end : cend lastp = cend current :=
            partitions_getLast ps current.start_offset (cend current) hps_part lastp hlastp
          have hps_head : ∀ hd, ps.head? = some hd → hd.start_offset = current.start_offset := by
            intro hd hhd
            cases ps with
            | nil => simp at hhd
            | cons p0 ps2 =>
              rw [List.head?_cons] at hhd
              cases hhd
              exact hps_part.1
          obtain ⟨hwf, hmono, hcov, hhull2, hbnd2⟩ :=
            ih rest (i + 1) (out ++ ps) out' hlenr hrestMem hrestOk hrestSrt
              (by
                intro c hc
                rcases List.mem_append.mp hc with h | h
                · exact hokO c h
                · obtain ⟨_, hp2, hp3⟩ := hps_mem c h
                  exact ⟨hp2, Nat.le_trans hp3 hcur.2⟩)
              (sortedChunks_append_of out ps hsrtO
                (partitions_sorted ps _ _ hps_part)
                (by
                  intro lo hlo hd hhd
                  rw [hps_head hd hhd]
                  exact hlink lo hlo current rfl))
              (by
                intro lo hlo hd hhd
                rw [List.getLast?_append, hlastp] at hlo
                cases hlo
                rw [hlastp_end]
                exact hlink2 hd hhd)
              (by
                intro c hc
                rcases List.mem_append.mp hc with h | h
                · exact hhull c h
                · obtain ⟨hp1, _, hp3⟩ := hps_mem c h
                  exact ⟨⟨current, hcurmem, hp1⟩, ⟨current, hcurmem, hp3⟩⟩)
              (by
                intro c hc
                rcases List.mem_append.mp hc with h | h
                · exact hbnd c h
                · obtain ⟨hcs, hce⟩ := hps_props c h
                  constructor
                  · rcases hcs with hcs | hcs
                    · exact Or.inl ⟨current, hcurmem, Or.inl hcs.symm⟩
                    · exact Or.inr hcs
                  · rcases hce with hce | hce
                    · exact Or.inl ⟨current, hcurmem, Or.inr hce.symm⟩
                    · exact Or.inr hce)
              hres
          refine ⟨hwf, ?_, ?_, hhull2, hbnd2⟩
          · exact fun k hk => hmono k (coveredBy_append_left hk)
          · intro c hc k hk1 hk2
            rcases List.mem_cons.mp hc with rfl | hc2
            · exact hmono k (coveredBy_append_right
                (partitions_cover ps c.start_offset (cend c) hps_part k hk1 hk2))
            · exact hcov c hc2 k hk1 hk2

/-! ### Top-level Pass-1 facts -/

theorem byteAt_mem (t : List Char) (p : Nat) (hp : p < t.length) : byteAt t p ∈ t := by
  rw [byteAt, List.getD_eq_getElem?_getD, List.getElem?_eq_getElem hp]
  exact List.getElem_mem hp

/-- Pass-1 output is well formed: positive in-bounds chunks, sorted and
    non-overlapping. -/
theorem a_sentence_chunker_wf (t : List Char) :
    (∀ c ∈ a_sentence_chunker t, 0 < c.length ∧ cend c ≤ t.length) ∧
    sortedChunks (a_sentence_chunker t) = true := by
  by_cases ht : t.length = 0
  · rw [a_sentence_chunker, if_pos ht]
    exact ⟨by intro c hc; simp at hc, rfl⟩
  · rw [a_sentence_chunker, if_neg ht]
    have h := chunkerLoop_wf t t.length (t.length + 1) 0 0 (Nat.zero_le _)
      (by intro k h1 h2; omega)
    exact ⟨fun c hc => ⟨(h.1 c hc).2.1, (h.1 c hc).2.2⟩, h.2⟩

/-- If no punctuation byte of the text is classified as terminal, Pass 1
    returns the single chunk `(0, L)` covering the whole text. -/
theorem a_sentence_chunker_no_terminal (t : List Char) (hne : t.length ≠ 0)
    (hterm : ∀ p, p < t.length → is_sentence_punct (byteAt t p) = true →
      is_end_of_sentence_heuristic t p t.length = false) :
    a_sentence_chunker t = [⟨0, t.length⟩] := by
  rw [a_sentence_chunker, if_neg hne]
  rw [chunkerLoop_no_terminal t t.length hterm (t.length + 1) 0 0 (by omega)]
  rw [if_pos (by omega)]
  simp

/-- Unfolding `a_rechunk_sentences` through the master invariant at the
    initial state (empty output buffer, input index 0). -/
theorem a_rechunk_sentences_spec (t : List Char) (inp : List Chunk) (mn mx L : Nat)
    (out : List Chunk)
    (hok : ∀ c ∈ inp, 0 < c.length ∧ cend c ≤ L)
    (hsrt : sortedChunks inp = true)
    (hres : a_rechunk_sentences t inp mn mx = some out) :
    ((∀ c ∈ out, 0 < c.length ∧ cend c ≤ L) ∧ sortedChunks out = true) ∧
    (∀ c ∈ inp, ∀ k, c.start_offset ≤ k → k < cend c → coveredBy out k = true) ∧
    (∀ c ∈ out, (∃ c1 ∈ inp, c1.start_offset ≤ c.start_offset) ∧
       ∃ c2 ∈ inp, cend c ≤ cend c2) ∧
    (∀ c ∈ out,
       ((∃ c1 ∈ inp, c1.start_offset = c.start_offset ∨ cend c1 = c.start_offset) ∨
          is_whitespace (byteAt t c.start_offset) = true) ∧
       ((∃ c1 ∈ inp, c1.start_offset = cend c ∨ cend c1 = cend c) ∨
          is_whitespace (byteAt t (cend c)) = true)) := by
  have h := rechunkLoop_master t mn mx L inp inp.length inp 0 [] out (Nat.le_refl _)
    (fun c hc => hc) hok hsrt
    (by intro c hc; simp at hc) rfl
    (by intro lo hlo; simp at hlo)
    (by intro c hc; simp at hc)
    (by intro c hc; simp at hc)
    hres
  exact ⟨h.1, h.2.2.1, h.2.2.2.1, h.2.2.2.2⟩

/-! ### The read trace of `matches_abbreviation` -/

theorem abbrevWordStart_le (t : List Char) : ∀ i, abbrevWordStart t i ≤ i := by
  intro i
  induction i with
  | zero => exact Nat.le_refl 0
  | succ k ih =>
    simp only [abbrevWordStart]
    split
    · exact Nat.le_refl _
    · exact Nat.le_trans ih (Nat.le_succ k)

/-- The sequence of text indices that `matches_abbreviation` reads, in program
    order, mirroring the C control flow exactly: the walk-back loop reads
    `i-1, i-2, …` down to (and including) the whitespace byte that stops it,
    or down to index `0`; the letter check reads `text[i+1]` with no bound
    check; the single-letter checks read the word byte and `text[i+1]` again;
    the `memcpy` into `buf` reads the word bytes `[w, i)`. -/
def matches_abbreviation_reads (t : List Char) (i : Nat) : List Nat :=
  if i = 0 then []
  else
    let w := abbrevWordStart t i
    let alen := i - w
    let walk := (List.range' w alen).reverse ++ (if w = 0 then [] else [w - 1])
    if alen = 0 then walk
    else
      walk ++ [i + 1] ++
        (if is_alpha (byteAt t (i + 1)) then []
         else if alen = 1 then
           [w] ++
             (if c_isupper (byteAt t w) then []
              else [i + 1] ++
                (if ¬ is_whitespace (byteAt t (i + 1)) then []
                 else List.range' w alen))
         else if 32 ≤ alen then []
         else List.range' w alen)

/-- Every index `matches_abbreviation` reads is at most `t.length`: the read
    of `text[i+1]` at the last text byte sees the NUL terminator, never a byte
    beyond it. -/
theorem matches_abbreviation_reads_le (t : List Char) (i : Nat) (hi : i < t.length) :
    ∀ k ∈ matches_abbreviation_reads t i, k ≤ t.length := by
  intro k hk
  by_cases h0 : i = 0
  · simp [matches_abbreviation_reads, h0] at hk
  · simp only [matches_abbreviation_reads, if_neg h0] at hk
    have hw := abbrevWordStart_le t i
    have hwalk : ∀ m, m ∈ (List.range' (abbrevWordStart t i)
        (i - abbrevWordStart t i)).reverse ++
        (if abbrevWordStart t i = 0 then [] else [abbrevWordStart t i - 1]) →
        m ≤ t.length := by
      intro m hm
      rcases List.mem_append.mp hm with hm1 | hm2
      · rw [List.mem_reverse, List.mem_range'_1] at hm1
        omega
      · split at hm2
        · simp at hm2
        · simp only [List.mem_singleton] at hm2
          omega
    have hrange : ∀ m, m ∈ List.range' (abbrevWordStart t i)
        (i - abbrevWordStart t i) → m ≤ t.length := by
      intro m hm
      rw [List.mem_range'_1] at hm
      omega
    split at hk
    · exact hwalk k hk
    · rcases List.mem_append.mp hk with hk1 | hk2
      · rcases List.mem_append.mp hk1 with hkw | hki
        · exact hwalk k hkw
        · simp only [List.mem_singleton] at hki
          omega
      · split at hk2
        · simp at hk2
        · split at hk2
          · rcases List.mem_append.mp hk2 with hkw | hkr
            · simp only [List.mem_singleton] at hkw
              omega
            · split at hkr
              · simp at hkr
              · rcases List.mem_append.mp hkr with hki | hkm
                · simp only [List.mem_singleton] at hki
                  omega
                · split at hkm
                  · simp at hkm
                  · exact hrange k hkm
          · split at hk2
            · simp at hk2
            · exact hrange k hk2

/-- Consecutive chunks strictly increase in `start_offset`. -/
def strictChunks : List Chunk → Bool
  | [] => true
  | [_] => true
  | a :: b :: rest => decide (a.start_offset < b.start_offset) && strictChunks (b :: rest)

theorem strictChunks_of_sorted : ∀ (cs : List Chunk),
    (∀ c ∈ cs, 0 < c.length) → sortedChunks cs = true → strictChunks cs = true := by
  intro cs
  induction cs with
  | nil => intro _ _; rfl
  | cons a rest ih =>
    intro hpos hsrt
    cases rest with
    | nil => rfl
    | cons b rest2 =>
      have h1 := sortedChunks_head_le a b rest2 hsrt
      have h2 := ih (fun c hc => hpos c (List.mem_cons_of_mem a hc))
        (sortedChunks_tail _ _ hsrt)
      simp only [strictChunks, Bool.and_eq_true, decide_eq_true_eq]
      refine ⟨?_, h2⟩
      have h3 := cend_def a
      have h4 := hpos a (List.mem_cons_self a (b :: rest2))
      omega

/-! ### Claim theorems -/

/-- C1 (counterexample): on the text `"Hi. Yo."`, Pass 1 yields the chunks
    `(0,3)` and `(4,3)` with the whitespace byte at index 3 uncovered; with
    `min_length = 5`, `max_length = 20` the re-chunker forward-merges them
    into `(0,7)`, so byte 3 is covered by the output but not by the input:
    the union of covered byte indices is NOT preserved — a merge does bring
    gap bytes into coverage, contrary to the claim. -/
theorem C1_counterexample :
    a_sentence_chunker "Hi. Yo.".data = [⟨0, 3⟩, ⟨4, 3⟩] ∧
    a_rechunk_sentences "Hi. Yo.".data [⟨0, 3⟩, ⟨4, 3⟩] 5 20 = some [⟨0, 7⟩] ∧
    coveredBy [(⟨0, 7⟩ : Chunk)] 3 = true ∧
    coveredBy [(⟨0, 3⟩ : Chunk), ⟨4, 3⟩] 3 = false := by decide

/-- C1 (amended): for every text and every well-formed chunk sequence
    (positive in-bounds chunks, sorted and non-overlapping — as produced by
    Pass 1), the chunks returned by `a_rechunk_sentences` cover every byte the
    input covered, and every covered output byte lies in the hull of the
    input: at or after some input chunk's start and before some input chunk's
    end.  Merging never deletes covered bytes and adds at most the gap bytes
    between merged chunks; splitting rearranges boundaries exactly. -/
theorem C1_rechunk_coverage :
    ∀ (t : List Char) (inp : List Chunk) (mn mx : Nat) (out : List Chunk),
      (∀ c ∈ inp, 0 < c.length ∧ cend c ≤ t.length) →
      sortedChunks inp = true →
      a_rechunk_sentences t inp mn mx = some out →
      (∀ k, coveredBy inp k = true → coveredBy out k = true) ∧
      (∀ k, coveredBy out k = true →
        (inp.any fun c => decide (c.start_offset ≤ k)) = true ∧
        (inp.any fun c => decide (k < cend c)) = true) := by
  intro t inp mn mx out hok hsrt hres
  have h := a_rechunk_sentences_spec t inp mn mx t.length out hok hsrt hres
  constructor
  · intro k hk
    obtain ⟨c, hc, h1, h2⟩ := (coveredBy_iff inp k).mp hk
    exact h.2.1 c hc k h1 h2
  · intro k hk
    obtain ⟨c, hc, h1, h2⟩ := (coveredBy_iff out k).mp hk
    obtain ⟨⟨c1, hc1, hc1le⟩, ⟨c2, hc2, hc2le⟩⟩ := h.2.2.1 c hc
    constructor
    · simp only [List.any_eq_true, decide_eq_true_eq]
      exact ⟨c1, hc1, by omega⟩
    · simp only [List.any_eq_true, decide_eq_true_eq]
      exact ⟨c2, hc2, by omega⟩

/-- C1 (witness). -/
theorem C1_witness : coveredBy [(⟨0, 7⟩ : Chunk)] 0 = true :=
  (C1_rechunk_coverage "Hi. Yo.".data [⟨0, 3⟩, ⟨4, 3⟩] 5 20 [⟨0, 7⟩]
    (by decide) (by decide) (by decide)).1 0 (by decide)

/-- C2 (counterexample): the claim asserts the output invariants for every
    input chunk sequence whose chunks lie within the text.  The chunks
    `(5,2)` and `(0,2)` of the 7-byte text `"abcdefg"` are positive and
    in-bounds but not sorted; `a_rechunk_sentences` (min 1, max 20) appends
    both unchanged, so its output is not strictly increasing in
    `start_offset`. -/
theorem C2_counterexample :
    ([(⟨5, 2⟩ : Chunk), ⟨0, 2⟩].all fun c =>
      decide (0 < c.length ∧ cend c ≤ ("abcdefg".data).length)) = true ∧
    a_rechunk_sentences "abcdefg".data [⟨5, 2⟩, ⟨0, 2⟩] 1 20 = some [⟨5, 2⟩, ⟨0, 2⟩] ∧
    sortedChunks [(⟨5, 2⟩ : Chunk), ⟨0, 2⟩] = false ∧
    strictChunks [(⟨5, 2⟩ : Chunk), ⟨0, 2⟩] = false := by decide

/-- C2 (amended): every chunk emitted by `a_sentence_chunker` on any text
    satisfies `start_offset + length ≤ L` and `length > 0`, and the sequence
    is strictly increasing in `start_offset` with non-overlapping ranges
    (`cend a ≤ b.start_offset` for consecutive chunks); and
    `a_rechunk_sentences` preserves these invariants provided the input
    sequence itself satisfies them (as Pass-1 output does) — not for
    arbitrary in-bounds inputs. -/
theorem C2_output_invariants :
    (∀ t : List Char,
       (∀ c ∈ a_sentence_chunker t, 0 < c.length ∧ cend c ≤ t.length) ∧
       sortedChunks (a_sentence_chunker t) = true ∧
       strictChunks (a_sentence_chunker t) = true) ∧
    (∀ (t : List Char) (inp : List Chunk) (mn mx : Nat) (out : List Chunk),
       (∀ c ∈ inp, 0 < c.length ∧ cend c ≤ t.length) →
       sortedChunks inp = true →
       a_rechunk_sentences t inp mn mx = some out →
       (∀ c ∈ out, 0 < c.length ∧ cend c ≤ t.length) ∧
       sortedChunks out = true ∧ strictChunks out = true) := by
  constructor
  · intro t
    obtain ⟨hok, hsrt⟩ := a_sentence_chunker_wf t
    exact ⟨hok, hsrt, strictChunks_of_sorted _ (fun c hc => (hok c hc).1) hsrt⟩
  · intro t inp mn mx out hok hsrt hres
    obtain ⟨hok2, hsrt2⟩ := (a_rechunk_sentences_spec t inp mn mx t.length out hok hsrt hres).1
    exact ⟨hok2, hsrt2, strictChunks_of_sorted _ (fun c hc => (hok2 c hc).1) hsrt2⟩

/-- C2 (witness). -/
theorem C2_witness : sortedChunks [(⟨0, 7⟩ : Chunk)] = true :=
  (C2_output_invariants.2 "Hi. Yo.".data [⟨0, 3⟩, ⟨4, 3⟩] 5 20 [⟨0, 7⟩]
    (by decide) (by decide) (by decide)).2.1

/-- C3 (counterexample): on `"1. First item 2. Second item."` Pass 1 returns
    three chunks (`"1."`, `"First item 2."`, `"Second item."`), not one: after
    each ordinal dot the next non-whitespace byte is an upper-case letter
    (`F`, `S`), so the ordinal rule — which requires end of text, a digit, or
    lower-case — does not suppress those dots. -/
theorem C3_counterexample :
    a_sentence_chunker "1. First item 2. Second item.".data =
      [⟨0, 2⟩, ⟨3, 13⟩, ⟨17, 12⟩] ∧
    (a_sentence_chunker "1. First item 2. Second item.".data).length ≠ 1 := by decide

/-- C3 (amended): Pass 1 applied to `"1. First item 2. Second item."` returns
    exactly the three chunks `"1."` (0,2), `"First item 2."` (3,13) and
    `"Second item."` (17,12): the dots after the ordinal numbers are terminal
    because the following non-whitespace byte is upper-case, and the final dot
    after `"item"` is terminal. -/
theorem C3_ordinal_scenario :
    a_sentence_chunker "1. First item 2. Second item.".data =
      [⟨0, 2⟩, ⟨3, 13⟩, ⟨17, 12⟩] := by decide

/-- C4 (counterexample): on the all-whitespace text `"   "` Pass 1 returns
    one chunk `(0, 3)` covering the whole text, not the empty sequence: the
    leftover path only requires `start_off < L` and fires because no terminal
    punctuation ever advanced `start_off`. -/
theorem C4_counterexample :
    ("   ".data.all fun c => is_whitespace c) = true ∧
    a_sentence_chunker "   ".data = [⟨0, 3⟩] ∧
    (a_sentence_chunker "   ".data).length ≠ 0 := by decide

/-- C4 (amended): for every non-empty text consisting entirely of whitespace
    bytes, `a_sentence_chunker` returns exactly one chunk `(0, L)` covering
    the whole text (emitted by the leftover path). -/
theorem C4_whitespace_text :
    ∀ t : List Char, t ≠ [] → (∀ c ∈ t, is_whitespace c = true) →
      a_sentence_chunker t = [⟨0, t.length⟩] := by
  intro t hne hws
  have hlen : t.length ≠ 0 := fun h => hne (List.length_eq_zero.mp h)
  apply a_sentence_chunker_no_terminal t hlen
  intro p hp hpunct
  exfalso
  have hmem := byteAt_mem t p hp
  have hw := hws (byteAt t p) hmem
  rw [punct_not_ws hpunct] at hw
  exact Bool.false_ne_true hw

/-- C4 (witness). -/
theorem C4_witness : a_sentence_chunker "   ".data = [⟨0, 3⟩] :=
  C4_whitespace_text "   ".data (by decide) (by decide)

/-- C5 (counterexample): the text `"  hi"` contains no punctuation (so no
    byte is classified terminal), yet Pass 1 returns `(0, 4)` — the chunk
    includes the two leading whitespace bytes, not `(2, 2)` starting at the
    first non-whitespace byte as the claim requires: leading whitespace is
    only skipped after a terminal punctuation, never at the start of the
    text. -/
theorem C5_counterexample :
    ((List.range ("  hi".data).length).all fun p =>
      decide (is_sentence_punct (byteAt "  hi".data p) = true →
        is_end_of_sentence_heuristic "  hi".data p ("  hi".data).length = false)) = true ∧
    a_sentence_chunker "  hi".data = [⟨0, 4⟩] ∧
    a_sentence_chunker "  hi".data ≠ [⟨2, 2⟩] := by decide

/-- C5 (amended): for every non-empty text in which no punctuation byte is
    classified as terminal by the end-of-sentence heuristic,
    `a_sentence_chunker` returns exactly one chunk, and that chunk is
    `(0, L)`: it spans the whole text including any leading whitespace. -/
theorem C5_no_terminal :
    ∀ t : List Char, t ≠ [] →
      (∀ p, p < t.length → is_sentence_punct (byteAt t p) = true →
        is_end_of_sentence_heuristic t p t.length = false) →
      a_sentence_chunker t = [⟨0, t.length⟩] := by
  intro t hne hterm
  exact a_sentence_chunker_no_terminal t (fun h => hne (List.length_eq_zero.mp h)) hterm

/-- C5 (witness). -/
theorem C5_witness : a_sentence_chunker "  hi".data = [⟨0, 4⟩] :=
  C5_no_terminal "  hi".data (by decide) (by decide)

/-- C6 (confirmed): for every text and parameters, every boundary (start or
    one-past-end offset) of a chunk emitted by `a_rechunk_sentences` on the
    Pass-1 chunks is either already a boundary of the input sequence (as for
    chunks that survive unchanged or are merged) or lies on a whitespace
    byte — every accepted split index lands on whitespace, so no token is
    ever cut. -/
theorem C6_split_boundaries_whitespace :
    ∀ (t : List Char) (mn mx : Nat) (out : List Chunk),
      a_rechunk_sentences t (a_sentence_chunker t) mn mx = some out →
      ∀ c ∈ out,
        (inputBoundary (a_sentence_chunker t) c.start_offset = true ∨
          is_whitespace (byteAt t c.start_offset) = true) ∧
        (inputBoundary (a_sentence_chunker t) (cend c) = true ∨
          is_whitespace (byteAt t (cend c)) = true) := by
  intro t mn mx out hres c hc
  have hwf := a_sentence_chunker_wf t
  have h := a_rechunk_sentences_spec t (a_sentence_chunker t) mn mx t.length out
    hwf.1 hwf.2 hres
  obtain ⟨hs, he⟩ := h.2.2.2 c hc
  constructor
  · rcases hs with ⟨c1, hc1, hd⟩ | hws
    · left
      simp only [inputBoundary, List.any_eq_true, decide_eq_true_eq]
      exact ⟨c1, hc1, hd⟩
    · exact Or.inr hws
  · rcases he with ⟨c1, hc1, hd⟩ | hws
    · left
      simp only [inputBoundary, List.any_eq_true, decide_eq_true_eq]
      exact ⟨c1, hc1, hd⟩
    · exact Or.inr hws

/-- C6 (witness). -/
theorem C6_witness :
    inputBoundary (a_sentence_chunker "Hi. Yo.".data) 0 = true ∨
      is_whitespace (byteAt "Hi. Yo.".data 0) = true :=
  (C6_split_boundaries_whitespace "Hi. Yo.".data 5 20 [⟨0, 7⟩] (by decide)
    ⟨0, 7⟩ (by decide)).1

/-- C7 (counterexample): applying the abbreviation check to the dot at the
    last index `L - 1 = 1` of the text `"A."` reads index `2 = L` (the line
    `is_alpha(text[i+1])` has no bound check), so the segmenter does inspect
    the byte at index `L`, contrary to the claim that every access lies
    strictly below `L` or behind a bound check. -/
theorem C7_counterexample :
    (2 : Nat) ∈ matches_abbreviation_reads "A.".data 1 ∧
    ("A.".data).length = 2 := by decide

/-- C7 (amended): every text index the abbreviation check reads when applied
    at a punctuation index `i < L` is at most `L`: the unguarded reads of
    `text[i+1]` reach at most the NUL terminator at index `L` of the
    null-terminated input string, and never a byte beyond it. -/
theorem C7_reads_bounded :
    ∀ (t : List Char) (i : Nat), i < t.length →
      ∀ k ∈ matches_abbreviation_reads t i, k ≤ t.length := by
  intro t i hi
  exact matches_abbreviation_reads_le t i hi

/-- C7 (witness). -/
theorem C7_witness : (2 : Nat) ≤ ("A.".data).length :=
  C7_reads_bounded "A.".data 1 (by decide) 2 (by decide)

/-- C8 (confirmed): `a_rechunk_sentences` never performs the invalid access of
    the backward-merge branch: the result is never `none`, i.e. whenever the
    branch guard `i > 0` holds the output buffer already contains at least
    one appended chunk, because every loop iteration appends at least one
    output chunk or mutates the last one. -/
theorem C8_backward_merge_safe :
    ∀ (t : List Char) (inp : List Chunk) (mn mx : Nat),
      (a_rechunk_sentences t inp mn mx).isSome = true := by
  intro t inp mn mx
  exact rechunkLoop_total t mn mx inp.length inp 0 []
    (fun h => absurd h (Nat.lt_irrefl 0))

/-- C9 (confirmed): `find_split_point` never returns an index beyond the
    chunk end, and whenever the returned split point is accepted by the
    splitting loop of Case C (strictly between the remaining chunk's start
    and end), the leftover length `(s + l) - split` is strictly smaller than
    `l`, so each iteration of the loop either breaks out or strictly
    decreases `remaining.length` and the loop terminates. -/
theorem C9_split_loop_terminates :
    ∀ (t : List Char) (s l mn mx : Nat),
      find_split_point t s l mn mx ≤ s + l ∧
      (s < find_split_point t s l mn mx → find_split_point t s l mn mx < s + l →
        (s + l) - find_split_point t s l mn mx < l) := by
  intro t s l mn mx
  rcases find_split_point_spec t s l mn mx with h | ⟨h1, h2, _⟩
  · rw [h]
    exact ⟨Nat.le_refl _, fun ha hb => by omega⟩
  · exact ⟨Nat.le_of_lt h2, fun ha hb => by omega⟩

/-- C9 (witness). -/
theorem C9_witness :
    find_split_point "aa bb".data 0 5 1 3 ≤ 0 + 5 ∧
    (0 + 5) - find_split_point "aa bb".data 0 5 1 3 < 5 :=
  ⟨(C9_split_loop_terminates "aa bb".data 0 5 1 3).1,
   (C9_split_loop_terminates "aa bb".data 0 5 1 3).2 (by decide) (by decide)⟩

/-- C10 (confirmed): every chunk emitted by `a_sentence_chunker` other than
    the first begins with a non-whitespace byte: after each terminal
    punctuation the segmenter advances the next chunk's start past all
    whitespace.  (Only the first chunk may begin with whitespace, since
    leading whitespace at the start of the text is never skipped.) -/
theorem C10_tail_chunks_nonws :
    ∀ (t : List Char) (c : Chunk), c ∈ (a_sentence_chunker t).tail →
      is_whitespace (byteAt t c.start_offset) = false := by
  intro t c hc
  by_cases ht : t.length = 0
  · rw [a_sentence_chunker, if_pos ht] at hc
    simp at hc
  · rw [a_sentence_chunker, if_neg ht] at hc
    exact chunkerLoop_tail_not_ws t t.length (t.length + 1) 0 0 c hc

/-- C10 (witness). -/
theorem C10_witness :
    is_whitespace (byteAt "Hi. Yo.".data ((⟨4, 3⟩ : Chunk).start_offset)) = false :=
  C10_tail_chunks_nonws "Hi. Yo.".data ⟨4, 3⟩ (by decide)

end SentenceChunker
